import Mathlib

/-!
# Verification of the slack-topic-detector retrieval-and-decision core

Shallow embedding of the pure computational core of the repository:

* `src/src/utils/text.js` — `normalizeText`, `truncate` (with the
  `ABBREVIATIONS` table from `src/src/config/constants.js`);
* `src/src/utils/similarity.js` — `levenshteinDistance`, `fuzzySimilarity`,
  `keywordOverlap`;
* `src/src/search/rrf.js` — `reciprocalRankFusion`, `calculateConfidence`,
  `generateRecommendation` (with `RRF_K`);
* `src/smart-categorizer.js` — `analyzeTopicCreation`, `validateNewTopic`;
* `src/src/categorizer.js` — the bounded decision loop of
  `categorizeMessage` and its deterministic fallback;
* `src/src/services/database.js` — the topic update performed by
  `storeMessageWithTopic`.

Modelling conventions:

* JavaScript strings are modelled as Lean `String` (a packed `List Char`);
  `String.prototype.length` is the character count (the sources only ever
  see plain text, where JS UTF-16 length and character count agree).
* JavaScript numbers are modelled as exact rationals `ℚ`.  Every score in
  the sources is produced by sums, products and divisions of small values,
  so the spec-level arithmetic facts are stated over `ℚ`.
* Regular-expression constructs are transcribed character by character:
  `\b` around an abbreviation (whose first and last characters are always
  word characters) holds exactly when the neighbouring character is not a
  word character `[A-Za-z0-9_]`; `\s` is whitespace; the `i` flag is
  irrelevant because `normalizeText` lowercases before replacing.
* External I/O (Weaviate queries, OpenAI calls, Slack fetches) is not
  embedded; functions that mix I/O with logic are embedded as the pure
  function of the data the I/O would deliver (e.g. `validateNewTopic`
  receives the topic list that `fetchAllTopics` would return, and the
  decision loop receives the per-iteration planner outcome as an oracle).
-/

namespace SlackTopics

open List

/-! ## Character classes (`src/src/utils/text.js` regexes)

`jsLowerChar` models `String.prototype.toLowerCase` on the ASCII range the
sources rely on; `isWordChar` models the regex word class `\w` = `[A-Za-z0-9_]`
used by `\b`; `isWsChar` models `\s`; `isKeptChar` is the complement of the
strip class `[^a-z0-9\s]`. -/

def jsLowerChar (c : Char) : Char :=
  if 'A' ≤ c ∧ c ≤ 'Z' then Char.ofNat (c.toNat + 32) else c

def isWordChar (c : Char) : Bool :=
  ('A' ≤ c && c ≤ 'Z') || ('a' ≤ c && c ≤ 'z') || ('0' ≤ c && c ≤ '9') || c = '_'

def isWsChar (c : Char) : Bool :=
  c = ' ' || c = '\t' || c = '\n' || c = '\r'

def isLowerAlnumChar (c : Char) : Bool :=
  ('a' ≤ c && c ≤ 'z') || ('0' ≤ c && c ≤ '9')

def isKeptChar (c : Char) : Bool :=
  isLowerAlnumChar c || isWsChar c

/-! ## `String.prototype.trim` and whitespace collapsing -/

/-- `text.trim()`: drop whitespace from both ends. -/
def trimChars (l : List Char) : List Char :=
  ((l.dropWhile isWsChar).reverse.dropWhile isWsChar).reverse

/-- One pass of `normalized.replace(/\s+/g, ' ')`: a run of whitespace
becomes a single `' '`.  The boolean records whether we are inside a
whitespace run that has already emitted its space. -/
def collapseWsAux : Bool → List Char → List Char
  | _, [] => []
  | inRun, c :: rest =>
    if isWsChar c then
      (if inRun then [] else [' ']) ++ collapseWsAux true rest
    else
      c :: collapseWsAux false rest

def collapseWs (l : List Char) : List Char := collapseWsAux false l

/-! ## Word-boundary replacement (`new RegExp('\\b' + abbr + '\\b', 'gi')`)

`matchCondAt prev s` holds when the abbreviation matches at the head of `s`
with `\b` on both sides; `prev` is the character of the *source* string just
before the scan position (`none` at the start of the string).  Every
abbreviation in the table starts and ends with a word character, so `\b`
before the match means "previous char is not a word char" and `\b` after the
match means "next char is not a word char".  As in JS `String.replace` with a
global regex, scanning resumes in the source string after the matched text,
and the inserted replacement is not rescanned.  The scanner uses fuel
(initially the length of the string) so that it is structurally recursive;
each step consumes at least one source character, so the fuel never runs
out. -/

def matchCondAt (abbr : List Char) (prev : Option Char) (s : List Char) : Bool :=
  (match prev with
   | none => true
   | some p => !isWordChar p) &&
  abbr.isPrefixOf s &&
  (match s.drop abbr.length with
   | [] => true
   | c :: _ => !isWordChar c)

def replaceWordFuel (abbr exp : List Char) : Nat → Option Char → List Char → List Char
  | 0, _, s => s
  | _ + 1, _, [] => []
  | fuel + 1, prev, c :: rest =>
    if matchCondAt abbr prev (c :: rest) then
      exp ++ replaceWordFuel abbr exp fuel (some (abbr.getLastD c)) ((c :: rest).drop abbr.length)
    else
      c :: replaceWordFuel abbr exp fuel (some c) rest

/-- `normalized.replace(/\babbr\b/gi, full)`. -/
def replaceWord (abbr exp : List Char) (s : List Char) : List Char :=
  replaceWordFuel abbr exp s.length none s

/-- Does the string contain a `\b`-delimited occurrence of `abbr`
(starting with the given previous character)? -/
def hasWordMatch (abbr : List Char) : Option Char → List Char → Bool
  | _, [] => false
  | prev, c :: rest =>
    if matchCondAt abbr prev (c :: rest) then true
    else hasWordMatch abbr (some c) rest

/-- `ABBREVIATIONS` from `src/src/config/constants.js`, in object insertion
order (the order `Object.entries` iterates). -/
def ABBREVIATIONS : List (String × String) :=
  [("db", "database"),
   ("k8s", "kubernetes"),
   ("auth", "authentication"),
   ("api", "application programming interface"),
   ("ui", "user interface"),
   ("ux", "user experience"),
   ("fe", "frontend"),
   ("be", "backend"),
   ("devops", "development operations"),
   ("ci", "continuous integration"),
   ("cd", "continuous deployment"),
   ("pr", "pull request"),
   ("mr", "merge request"),
   ("env", "environment"),
   ("config", "configuration"),
   ("infra", "infrastructure"),
   ("perf", "performance"),
   ("prod", "production"),
   ("dev", "development"),
   ("qa", "quality assurance")]

/-- The `for (const [abbr, full] of Object.entries(ABBREVIATIONS))` loop. -/
def expandAbbreviations (l : List Char) : List Char :=
  ABBREVIATIONS.foldl (fun acc p => replaceWord p.1.toList p.2.toList acc) l

/-- `normalized.replace(/[^a-z0-9\s]/g, ' ')`. -/
def stripSpecials (l : List Char) : List Char :=
  l.map (fun c => if isKeptChar c then c else ' ')

/-- `normalizeText` from `src/src/utils/text.js`:
`if (!text) return ''`; lowercase and trim; expand each abbreviation with a
`\b``gi` regex; replace `[^a-z0-9\s]` by spaces; collapse `\s+` to single
spaces and trim. -/
def normalizeText (text : String) : String :=
  if text = "" then ""
  else
    let normalized := trimChars (text.toList.map jsLowerChar)
    let expanded := expandAbbreviations normalized
    let stripped := stripSpecials expanded
    String.mk (trimChars (collapseWs stripped))

def TEXT_PREVIEW_LENGTH : Nat := 150

/-- `truncate` from `src/src/utils/text.js`. -/
def truncate (text : String) (maxLength : Nat) : String :=
  if text = "" then ""
  else if maxLength < text.length then String.mk (text.toList.take maxLength) ++ "..."
  else text

/-! ## Similarity engine (`src/src/utils/similarity.js`) -/

/-- `levenshteinDistance`.  The JS builds the full DP table with
`dp[i][j] = dp[i-1][j-1]` when the characters agree and
`1 + min(dp[i-1][j], dp[i][j-1], dp[i-1][j-1])` otherwise, with first
row/column `j` and `i`; this is the standard edit-distance recurrence, which
the recursion below reads directly off the table. -/
def levenshteinDistance : List Char → List Char → Nat
  | [], t => t.length
  | s, [] => s.length
  | x :: s, y :: t =>
    if x = y then levenshteinDistance s t
    else 1 + min (levenshteinDistance s (y :: t))
           (min (levenshteinDistance (x :: s) t) (levenshteinDistance s t))
termination_by s t => s.length + t.length
decreasing_by all_goals simp_arith

/-- `fuzzySimilarity`: normalize both inputs; identical normalizations score
`1.0` (this branch runs *before* the empty check); if either normalization is
empty, score `0`; otherwise `1 - distance / maxLen`. -/
def fuzzySimilarity (str1 str2 : String) : ℚ :=
  let s1 := normalizeText str1
  let s2 := normalizeText str2
  if s1 = s2 then 1
  else if s1 = "" ∨ s2 = "" then 0
  else
    let maxLen : ℚ := max s1.length s2.length
    let distance : ℚ := levenshteinDistance s1.toList s2.toList
    1 - distance / maxLen

/-- `new Set(list)`: deduplicate keeping the first occurrence (JS `Set`
iterates in insertion order). -/
def dedupKeepFirst (l : List String) : List String :=
  l.foldl (fun acc x => if x ∈ acc then acc else acc ++ [x]) []

/-- `keywordOverlap`: `0` if either array is missing or empty; otherwise
`matches / |set1 ∪ set2|` where a `k1 ∈ set1` counts as matched when some
`k2 ∈ set2` is equal to it or fuzzy-similar above `0.8` (the inner loop
breaks at the first match, so each `k1` counts at most once). -/
def keywordOverlap (keywords1 keywords2 : List String) : ℚ :=
  if keywords1 = [] ∨ keywords2 = [] then 0
  else
    let set1 := dedupKeepFirst (keywords1.map normalizeText)
    let set2 := dedupKeepFirst (keywords2.map normalizeText)
    let matchCount :=
      (set1.filter (fun k1 => set2.any (fun k2 => k1 = k2 || fuzzySimilarity k1 k2 > 0.8))).length
    let unionSize := (dedupKeepFirst (set1 ++ set2)).length
    (matchCount : ℚ) / unionSize

/-! ## Retrieval fusion (`src/src/search/rrf.js`) -/

def RRF_K : ℚ := 60

/-- One raw search hit, as the search strategies deliver it: `_additional.id`
may be missing or empty (both falsy in JS), and each strategy stamps its own
1-based rank field. -/
structure SearchEntry where
  id : Option String
  name : String
  description : String
  keywords : List String
  users : List String
  sampleMessages : List String
  messageCount : Nat
  hybridRank : Option Nat
  vectorRank : Option Nat
  bm25Rank : Option Nat
deriving DecidableEq

/-- `const id = topic._additional?.id; if (!id) continue;` — the id used for
fusion, `none` when missing or empty (JS falsy). -/
def truthyId (e : SearchEntry) : Option String :=
  match e.id with
  | none => none
  | some s => if s = "" then none else some s

/-- JS `a || b` on an optional number: `0`, like `undefined`, is falsy. -/
def jsOrNat (o : Option Nat) (alt : Nat) : Nat :=
  match o with
  | none => alt
  | some n => if n = 0 then alt else n

/-- `topic.hybridRank || topic.vectorRank || topic.bm25Rank || 999`. -/
def effRank (e : SearchEntry) : Nat :=
  jsOrNat e.hybridRank (jsOrNat e.vectorRank (jsOrNat e.bm25Rank 999))

/-- A fused candidate: first-occurrence topic data plus the accumulated RRF
score (the per-strategy `ranks` debug record is not modelled). -/
structure FusedTopic where
  id : String
  name : String
  description : String
  keywords : List String
  users : List String
  sampleMessages : List String
  messageCount : Nat
  rrfScore : ℚ
deriving DecidableEq

def entryData (id : String) (e : SearchEntry) (score : ℚ) : FusedTopic :=
  { id := id
    name := e.name
    description := e.description
    keywords := e.keywords
    users := e.users
    sampleMessages := e.sampleMessages
    messageCount := e.messageCount
    rrfScore := score }

/-- Processing one hit: skip falsy ids; accumulate `1/(k + rank)` into the
score map; keep the first occurrence's topic data.  The two JS `Map`s (scores
and data) share their key set and insertion order, so they are modelled as
one insertion-ordered association list. -/
def rrfStep (k : ℚ) (acc : List FusedTopic) (e : SearchEntry) : List FusedTopic :=
  match truthyId e with
  | none => acc
  | some id =>
    let contribution : ℚ := 1 / (k + effRank e)
    if acc.any (fun t => t.id = id) then
      acc.map (fun t => if t.id = id then { t with rrfScore := t.rrfScore + contribution } else t)
    else
      acc ++ [entryData id e contribution]

/-- The fused map in first-seen order, before sorting. -/
def rrfAccum (k : ℚ) (searchResults : List (List SearchEntry)) : List FusedTopic :=
  searchResults.flatten.foldl (rrfStep k) []

/-- Stable insertion for a descending sort by a rational key: the new element
goes after every element whose key is `≥` its own, which is exactly the
behaviour of JS's stable `Array.prototype.sort` with comparator
`(a, b) => keyB - keyA`. -/
def insertDescBy {α : Type} (key : α → ℚ) (x : α) : List α → List α
  | [] => [x]
  | y :: ys => if key y < key x then x :: y :: ys else y :: insertDescBy key x ys

def sortDescBy {α : Type} (key : α → ℚ) (l : List α) : List α :=
  l.foldl (fun acc x => insertDescBy key x acc) []

/-- `reciprocalRankFusion` from `src/src/search/rrf.js` (the `k = RRF_K`
default is applied at the call sites modelled here). -/
def reciprocalRankFusion (searchResults : List (List SearchEntry)) (k : ℚ) : List FusedTopic :=
  sortDescBy (fun t => t.rrfScore) (rrfAccum k searchResults)

/-! ## Confidence scorer (`calculateConfidence` in `src/src/search/rrf.js`) -/

structure ConfidenceFactors where
  rrfScore : ℚ
  keywordOverlap : ℚ
  nameSimilarity : ℚ
  recencyBoost : ℚ
deriving DecidableEq

structure ConfidenceResult where
  confidence : ℚ
  factors : ConfidenceFactors
deriving DecidableEq

/-- `calculateConfidence(topic, query, messageKeywords)`. -/
def calculateConfidence (topic : FusedTopic) (query : String)
    (messageKeywords : List String) : ConfidenceResult :=
  let rrfNormalized := min (topic.rrfScore * 20) 1
  let kwOverlap := keywordOverlap messageKeywords topic.keywords
  let nameSimilarity := fuzzySimilarity query topic.name
  let recencyBoost := min ((topic.messageCount : ℚ) / 50) 1
  { confidence :=
      rrfNormalized * 0.4 + kwOverlap * 0.3 + nameSimilarity * 0.2 + recencyBoost * 0.1
    factors :=
      { rrfScore := rrfNormalized
        keywordOverlap := kwOverlap
        nameSimilarity := nameSimilarity
        recencyBoost := recencyBoost } }

/-! ## Recommendation engine (`generateRecommendation` in `src/src/search/rrf.js`) -/

structure ScoredMatch where
  id : String
  name : String
  confidence : ℚ
deriving DecidableEq

structure Recommendation where
  action : String
  confidence : ℚ
  suggested_topic_id : Option String
  suggested_topic_name : Option String
  reason : String
deriving DecidableEq

def generateRecommendation (matchList : List ScoredMatch) : Recommendation :=
  match matchList with
  | [] =>
    { action := "create"
      confidence := 0
      suggested_topic_id := none
      suggested_topic_name := none
      reason := "No existing topics found - create a new specific topic" }
  | bestMatch :: _ =>
    if 0.80 ≤ bestMatch.confidence then
      { action := "assign"
        confidence := bestMatch.confidence
        suggested_topic_id := some bestMatch.id
        suggested_topic_name := some bestMatch.name
        reason := "High confidence match with \"" ++ bestMatch.name ++ "\"" }
    else if 0.50 ≤ bestMatch.confidence then
      { action := "review"
        confidence := bestMatch.confidence
        suggested_topic_id := some bestMatch.id
        suggested_topic_name := some bestMatch.name
        reason := "Possible match with \"" ++ bestMatch.name ++ "\" - review context to decide" }
    else
      { action := "create"
        confidence := bestMatch.confidence
        suggested_topic_id := none
        suggested_topic_name := none
        reason := "Low confidence matches - consider creating a new specific topic" }

/-! ## Duplicate validator (`analyzeTopicCreation` / `validateNewTopic` in
`src/smart-categorizer.js`)

The proposal's `keywords` field is modelled as the keyword list the caller
passes (the JS fallback `proposedTopic.keywords || extractKeywords(...)` is
taken only when the field is absent, which is outside the modelled claims;
note that in JS an *empty* keywords array is truthy and is used as-is, which
the model reproduces).  `validateNewTopic` receives the topic list that
`fetchAllTopics` would return. -/

structure ValidatorTopic where
  id : String
  name : String
  description : String
  keywords : List String
deriving DecidableEq

structure ProposedTopic where
  name : String
  description : String
  keywords : List String
deriving DecidableEq

structure Suggestion where
  topicId : String
  topicName : String
  combinedScore : ℚ
  nameScore : ℚ
  descriptionScore : ℚ
  keywordsScore : ℚ
  matchTypes : List String
  recommendation : String
deriving DecidableEq

/-- Default `options` of `analyzeTopicCreation`. -/
def FUZZY_THRESHOLD : ℚ := 0.6
def KEYWORD_THRESHOLD : ℚ := 0.4

/-- Per-existing-topic scores: fuzzy name similarity; description similarity
(`0` when the proposal's description is falsy); keyword overlap; and the
weighted combination `0.5·name + 0.2·description + 0.3·keywords`. -/
def vNameSimilarity (p : ProposedTopic) (t : ValidatorTopic) : ℚ :=
  fuzzySimilarity p.name t.name

def vDescSimilarity (p : ProposedTopic) (t : ValidatorTopic) : ℚ :=
  if p.description = "" then 0 else fuzzySimilarity p.description t.description

def vKwOverlap (p : ProposedTopic) (t : ValidatorTopic) : ℚ :=
  keywordOverlap p.keywords t.keywords

def combinedScore (p : ProposedTopic) (t : ValidatorTopic) : ℚ :=
  vNameSimilarity p t * 0.5 + vDescSimilarity p t * 0.2 + vKwOverlap p t * 0.3

def vMatchTypes (p : ProposedTopic) (t : ValidatorTopic) : List String :=
  (if FUZZY_THRESHOLD ≤ vNameSimilarity p t then ["name"] else []) ++
  (if FUZZY_THRESHOLD ≤ vDescSimilarity p t then ["description"] else []) ++
  (if KEYWORD_THRESHOLD ≤ vKwOverlap p t then ["keywords"] else [])

def mkSuggestion (p : ProposedTopic) (t : ValidatorTopic) : Suggestion :=
  { topicId := t.id
    topicName := t.name
    combinedScore := combinedScore p t
    nameScore := vNameSimilarity p t
    descriptionScore := vDescSimilarity p t
    keywordsScore := vKwOverlap p t
    matchTypes := vMatchTypes p t
    recommendation := if 0.7 ≤ combinedScore p t then "use_existing" else "consider_merge" }

/-- A topic surfaces as a suggestion when some factor clears its threshold or
the combined score is at least `0.5`. -/
def surfaces (p : ProposedTopic) (t : ValidatorTopic) : Bool :=
  decide (vMatchTypes p t ≠ []) || decide ((0.5 : ℚ) ≤ combinedScore p t)

structure ValidationResult where
  shouldCreate : Bool
  confidence : ℚ
  suggestions : List Suggestion
deriving DecidableEq

/-- `analyzeTopicCreation(proposedTopic, existingTopics)` with default
options (the human-readable `reasoning` string is not modelled). -/
def analyzeTopicCreation (p : ProposedTopic) (existingTopics : List ValidatorTopic) :
    ValidationResult :=
  let suggestions :=
    sortDescBy (fun s => s.combinedScore)
      (existingTopics.filterMap (fun t => if surfaces p t then some (mkSuggestion p t) else none))
  let shouldCreate : Bool :=
    match suggestions with
    | [] => true
    | top :: _ => decide (top.combinedScore < 0.5)
  { shouldCreate := shouldCreate
    confidence :=
      if shouldCreate then 0.8
      else match suggestions with
        | [] => 0.8
        | top :: _ => 1 - top.combinedScore
    suggestions := suggestions }

/-- `validateNewTopic(proposedTopic)`, given the topic list that
`fetchAllTopics` returns: empty taxonomy short-circuits to
`shouldCreate = true, confidence = 1.0`. -/
def validateNewTopic (p : ProposedTopic) (existingTopics : List ValidatorTopic) :
    ValidationResult :=
  if existingTopics = [] then
    { shouldCreate := true, confidence := 1, suggestions := [] }
  else
    analyzeTopicCreation p existingTopics

/-! ## Decision loop (`categorizeMessage` in `src/src/categorizer.js`)

Each iteration of the `while (!decision && iterations < maxIterations)` loop
asks the external planner (the OpenAI chat call plus tool execution) for an
outcome: a terminal assign/create decision, a non-terminal outcome (tool
results or a bare stop, which merely appends messages), or a thrown error.
The error is caught and retried, except that
`if (iterations >= maxIterations) throw error` rethrows on the last
iteration.  The planner is modelled as an oracle from the iteration number to
its outcome. -/

inductive Decision where
  | assign (topic_id : String) (topic_name : Option String) (reasoning : String)
  | create (name : String) (description : String) (keywords : List String) (reasoning : String)
deriving DecidableEq

inductive PlannerStep where
  | decide (d : Decision)
  | noop
  | err
deriving DecidableEq

/-- `maxIterations = 5` default in `src/src/categorizer.js`. -/
def DEFAULT_MAX_ITERATIONS : Nat := 5

/-- `maxIterations = 10` default in the legacy monolith
`src/smart-categorizer.js` (same loop shape). -/
def SMART_DEFAULT_MAX_ITERATIONS : Nat := 10

/-- The loop body; `remaining = maxIterations - iterations` is fuel making
the recursion structural.  Returns the decision (if any) and the final
iteration count, or `Except.error` when the final iteration's error is
rethrown. -/
def loopGo (o : Nat → PlannerStep) (maxIterations : Nat) :
    Nat → Nat → Except Unit (Option Decision × Nat)
  | 0, iterations => Except.ok (none, iterations)
  | remaining + 1, iterations =>
    let i := iterations + 1
    match o i with
    | PlannerStep.decide d => Except.ok (some d, i)
    | PlannerStep.noop => loopGo o maxIterations remaining i
    | PlannerStep.err =>
      if maxIterations ≤ i then Except.error ()
      else loopGo o maxIterations remaining i

def runDecisionLoop (o : Nat → PlannerStep) (maxIterations : Nat) :
    Except Unit (Option Decision × Nat) :=
  loopGo o maxIterations maxIterations 0

/-! ### Conversation state and the deterministic fallback -/

/-- Per-channel conversation context (`src/src/context/conversation.js`):
`currentTopicId`/`currentTopicName` are `null` until a message is applied. -/
structure ChannelContext where
  recentMessages : List String
  currentTopicId : Option String
  currentTopicName : Option String
deriving DecidableEq

/-- Truthiness of `channelContext?.currentTopicId`. -/
def hasActiveTopic (ctx : Option ChannelContext) : Bool :=
  match ctx with
  | none => false
  | some c =>
    match c.currentTopicId with
    | none => false
    | some tid => tid ≠ ""

/-- The short-message threshold `message.text.length < 15`. -/
def SHORT_MESSAGE_THRESHOLD : Nat := 15

/-- The fallback block of `categorizeMessage` (lines 139–160 of
`src/src/categorizer.js`; `src/smart-categorizer.js` lines 1911–1948 are the
same logic). -/
def fallbackDecision (messageText : String) (ctx : Option ChannelContext) : Decision :=
  if messageText.length < SHORT_MESSAGE_THRESHOLD ∧ hasActiveTopic ctx then
    match ctx with
    | some c =>
      match c.currentTopicId with
      | some tid =>
        Decision.assign tid c.currentTopicName "Fallback: Short message assigned to recent topic"
      | none =>
        Decision.create "General Discussion" "General messages and conversations"
          ["general", "chat", "discussion"] "Fallback: Could not determine specific topic"
    | none =>
      Decision.create "General Discussion" "General messages and conversations"
        ["general", "chat", "discussion"] "Fallback: Could not determine specific topic"
  else
    Decision.create "General Discussion" "General messages and conversations"
      ["general", "chat", "discussion"] "Fallback: Could not determine specific topic"

/-- The decision-producing part of `categorizeMessage`: run the bounded loop,
then fall back deterministically if it ended without a decision.  An error
rethrown from the final iteration propagates (`Except.error`). -/
def categorizeDecide (o : Nat → PlannerStep) (maxIterations : Nat)
    (messageText : String) (ctx : Option ChannelContext) : Except Unit Decision :=
  match runDecisionLoop o maxIterations with
  | Except.error () => Except.error ()
  | Except.ok (some d, _) => Except.ok d
  | Except.ok (none, _) => Except.ok (fallbackDecision messageText ctx)

/-! ## Topic update on apply (`storeMessageWithTopic` in
`src/src/services/database.js`)

The message insert, reference link and Weaviate update are I/O; the new
property record written back to the topic is the pure function below of the
current properties and the incoming message. -/

structure StoredTopicProps where
  name : String
  description : String
  keywords : List String
  users : List String
  sampleMessages : List String
  messageCount : Nat
  createdAt : String
deriving DecidableEq

/-- `array.slice(-10)`: the last (at most) 10 elements. -/
def takeLastN {α : Type} (n : Nat) (l : List α) : List α :=
  l.drop (l.length - n)

/-- The properties written by `storeMessageWithTopic`'s updater call:
contributor added if new, the truncated message appended to the samples with
`slice(-10)`, and `messageCount` bumped by one. -/
def storeMessageTopicUpdate (currentTopic : StoredTopicProps)
    (messageText userName : String) : StoredTopicProps :=
  let updatedUsers :=
    if userName ∈ currentTopic.users then currentTopic.users
    else currentTopic.users ++ [userName]
  let updatedSamples := takeLastN 10 (currentTopic.sampleMessages ++ [truncate messageText 100])
  { currentTopic with
      users := updatedUsers
      sampleMessages := updatedSamples
      messageCount := currentTopic.messageCount + 1 }

/-! ## Helper lemmas for the decision loop -/

lemma loopGo_bound (o : Nat → PlannerStep) (maxIterations : Nat) :
    ∀ remaining iterations d n,
      loopGo o maxIterations remaining iterations = Except.ok (d, n) →
      n ≤ iterations + remaining := by
  intro remaining
  induction remaining with
  | zero =>
    intro iterations d n h
    simp only [loopGo] at h
    cases h
    omega
  | succ r ih =>
    intro iterations d n h
    simp only [loopGo] at h
    cases ho : o (iterations + 1) with
    | decide dd =>
      rw [ho] at h
      cases h
      omega
    | noop =>
      rw [ho] at h
      have := ih (iterations + 1) d n h
      omega
    | err =>
      rw [ho] at h
      by_cases hle : maxIterations ≤ iterations + 1
      · simp [hle] at h
      · simp only [hle, if_false] at h
        have := ih (iterations + 1) d n h
        omega

lemma loopGo_no_err (o : Nat → PlannerStep) (maxIterations : Nat)
    (h : ∀ i, o i ≠ PlannerStep.err) :
    ∀ remaining iterations, ∃ res, loopGo o maxIterations remaining iterations = Except.ok res := by
  intro remaining
  induction remaining with
  | zero => intro iterations; exact ⟨(none, iterations), rfl⟩
  | succ r ih =>
    intro iterations
    cases ho : o (iterations + 1) with
    | decide dd => exact ⟨(some dd, iterations + 1), by simp [loopGo, ho]⟩
    | noop =>
      obtain ⟨res, hres⟩ := ih (iterations + 1)
      exact ⟨res, by simp [loopGo, ho, hres]⟩
    | err => exact absurd ho (h (iterations + 1))

/-! ## Claim theorems -/

/-- Claim C2: `generateRecommendation` is evaluated on the top-ranked scored
match only and returns action `"assign"` when that match's confidence is at
least `0.80`, `"review"` when it is at least `0.50` and below `0.80`, and
`"create"` when it is below `0.50` or the match list is empty (in which case
the returned confidence is `0`). -/
theorem C2_generateRecommendation_thresholds (matchList : List ScoredMatch) :
    (matchList = [] →
      generateRecommendation matchList =
        { action := "create", confidence := 0, suggested_topic_id := none,
          suggested_topic_name := none,
          reason := "No existing topics found - create a new specific topic" }) ∧
    (∀ m rest, matchList = m :: rest →
      (0.80 ≤ m.confidence →
        (generateRecommendation matchList).action = "assign" ∧
        (generateRecommendation matchList).confidence = m.confidence ∧
        (generateRecommendation matchList).suggested_topic_id = some m.id ∧
        (generateRecommendation matchList).suggested_topic_name = some m.name) ∧
      (0.50 ≤ m.confidence ∧ m.confidence < 0.80 →
        (generateRecommendation matchList).action = "review" ∧
        (generateRecommendation matchList).confidence = m.confidence ∧
        (generateRecommendation matchList).suggested_topic_id = some m.id ∧
        (generateRecommendation matchList).suggested_topic_name = some m.name) ∧
      (m.confidence < 0.50 →
        (generateRecommendation matchList).action = "create" ∧
        (generateRecommendation matchList).confidence = m.confidence)) := by
  refine ⟨fun h => by subst h; rfl, fun m rest h => ?_⟩
  subst h
  refine ⟨fun h80 => ?_, fun h58 => ?_, fun h5 => ?_⟩
  · simp [generateRecommendation, h80]
  · have : ¬(0.80 ≤ m.confidence) := by linarith [h58.2]
    simp [generateRecommendation, this, h58.1]
  · have h1 : ¬(0.80 ≤ m.confidence) := by linarith
    have h2 : ¬(0.50 ≤ m.confidence) := by linarith
    simp [generateRecommendation, h1, h2]

/-- Witness for C2 at a concrete match list. -/
theorem C2_generateRecommendation_thresholds_witness :
    (generateRecommendation [{ id := "t1", name := "T", confidence := 0.9 }]).action =
      "assign" :=
  (((C2_generateRecommendation_thresholds _).2 _ _ rfl).1 (by norm_num)).1

/-- Claim C4 counterexample: with the default bound of
`src/src/categorizer.js` (5) and a planner that errors every iteration, the
error of the final iteration is rethrown (`if (iterations >= maxIterations)
throw error`), so no decision is produced and the fallback never runs; in
addition the legacy loop's default bound is 10, not 5. -/
theorem C4_counterexample :
    categorizeDecide (fun _ => PlannerStep.err) DEFAULT_MAX_ITERATIONS "hello" none =
      Except.error () ∧
    SMART_DEFAULT_MAX_ITERATIONS ≠ DEFAULT_MAX_ITERATIONS := by
  exact ⟨rfl, by decide⟩

/-- Claim C4 (amended): the decision loop executes at most `maxIterations`
iterations (default 5 in `src/src/categorizer.js`, 10 in
`src/smart-categorizer.js`); whenever the loop completes without a thrown
final-iteration error, a decision is produced — the finalize decision if one
was made, otherwise the deterministic fallback; in particular with an
error-free planner a decision is always produced. -/
theorem C4_decision_loop_bounded (o : Nat → PlannerStep) (maxIterations : Nat)
    (text : String) (ctx : Option ChannelContext) :
    DEFAULT_MAX_ITERATIONS = 5 ∧
    (∀ d n, runDecisionLoop o maxIterations = Except.ok (d, n) → n ≤ maxIterations) ∧
    ((∀ i, o i ≠ PlannerStep.err) →
      ∃ dec, categorizeDecide o maxIterations text ctx = Except.ok dec) ∧
    (∀ n, runDecisionLoop o maxIterations = Except.ok (none, n) →
      categorizeDecide o maxIterations text ctx = Except.ok (fallbackDecision text ctx)) := by
  refine ⟨rfl, ?_, ?_, ?_⟩
  · intro d n h
    have := loopGo_bound o maxIterations maxIterations 0 d n h
    omega
  · intro herr
    obtain ⟨⟨d, n⟩, hres⟩ := loopGo_no_err o maxIterations herr maxIterations 0
    cases d with
    | none =>
      exact ⟨fallbackDecision text ctx, by simp [categorizeDecide, runDecisionLoop, hres]⟩
    | some dec =>
      exact ⟨dec, by simp [categorizeDecide, runDecisionLoop, hres]⟩
  · intro n h
    simp [categorizeDecide, h]

/-- Witness for C4 (amended) at a concrete planner trace. -/
theorem C4_decision_loop_bounded_witness :
    ∃ dec,
      categorizeDecide (fun _ => PlannerStep.noop) DEFAULT_MAX_ITERATIONS "hi" none =
        Except.ok dec :=
  (C4_decision_loop_bounded (fun _ => PlannerStep.noop) DEFAULT_MAX_ITERATIONS "hi"
    none).2.2.1 (fun _ h => PlannerStep.noConfusion h)

/-- Claim C5: whenever the decision loop reaches fallback, a message shorter
than the 15-character threshold whose channel context has a truthy current
topic is assigned to that topic; in every other case a generic catch-all
topic is created; the fallback always produces a decision, and in particular
every 2-character message with an active topic is assigned, never created. -/
theorem C5_fallback_deterministic (text : String) (ctx : Option ChannelContext) :
    (text.length < SHORT_MESSAGE_THRESHOLD ∧ hasActiveTopic ctx = true →
      ∃ c tid, ctx = some c ∧ c.currentTopicId = some tid ∧
        fallbackDecision text ctx =
          Decision.assign tid c.currentTopicName
            "Fallback: Short message assigned to recent topic") ∧
    (¬(text.length < SHORT_MESSAGE_THRESHOLD ∧ hasActiveTopic ctx = true) →
      fallbackDecision text ctx =
        Decision.create "General Discussion" "General messages and conversations"
          ["general", "chat", "discussion"] "Fallback: Could not determine specific topic") ∧
    (text.length = 2 → hasActiveTopic ctx = true →
      ∃ tid nm r, fallbackDecision text ctx = Decision.assign tid nm r) := by
  refine ⟨?_, ?_, ?_⟩
  · rintro ⟨hlen, hact⟩
    cases ctx with
    | none => simp [hasActiveTopic] at hact
    | some c =>
      cases htid : c.currentTopicId with
      | none => simp [hasActiveTopic, htid] at hact
      | some tid =>
        refine ⟨c, tid, rfl, htid, ?_⟩
        simp only [fallbackDecision, htid]
        rw [if_pos ⟨hlen, hact⟩]
  · intro hneg
    simp only [fallbackDecision]
    rw [if_neg hneg]
  · intro hlen hact
    cases ctx with
    | none => simp [hasActiveTopic] at hact
    | some c =>
      cases htid : c.currentTopicId with
      | none => simp [hasActiveTopic, htid] at hact
      | some tid =>
        refine ⟨tid, c.currentTopicName,
          "Fallback: Short message assigned to recent topic", ?_⟩
        simp only [fallbackDecision, htid]
        have hlt : text.length < SHORT_MESSAGE_THRESHOLD := by
          rw [hlen]; decide
        rw [if_pos ⟨hlt, hact⟩]

/-- Witness for C5 at a concrete short message and active context. -/
theorem C5_fallback_deterministic_witness :
    ∃ tid nm r,
      fallbackDecision "ok"
          (some { recentMessages := [], currentTopicId := some "T9",
                  currentTopicName := some "Topic Nine" }) =
        Decision.assign tid nm r :=
  (C5_fallback_deterministic "ok"
      (some { recentMessages := [], currentTopicId := some "T9",
              currentTopicName := some "Topic Nine" })).2.2 (by decide) (by decide)

/-- Claim C9: applying a decision to a topic via `storeMessageWithTopic`
increases that topic's `messageCount` by exactly 1 (hence monotonically),
and keeps `sampleMessages` bounded at 10 entries with the new sample
appended last and the oldest entries dropped first. -/
theorem C9_store_message_invariants (t : StoredTopicProps) (messageText userName : String) :
    (storeMessageTopicUpdate t messageText userName).messageCount = t.messageCount + 1 ∧
    t.messageCount ≤ (storeMessageTopicUpdate t messageText userName).messageCount ∧
    (storeMessageTopicUpdate t messageText userName).sampleMessages =
      takeLastN 10 (t.sampleMessages ++ [truncate messageText 100]) ∧
    (storeMessageTopicUpdate t messageText userName).sampleMessages.length ≤ 10 ∧
    (storeMessageTopicUpdate t messageText userName).sampleMessages.getLast? =
      some (truncate messageText 100) ∧
    (storeMessageTopicUpdate t messageText userName).sampleMessages <:+
      (t.sampleMessages ++ [truncate messageText 100]) ∧
    (t.sampleMessages.length ≤ 9 →
      (storeMessageTopicUpdate t messageText userName).sampleMessages =
        t.sampleMessages ++ [truncate messageText 100]) := by
  refine ⟨rfl, by simp [storeMessageTopicUpdate], rfl, ?_, ?_, ?_, ?_⟩
  · simp only [storeMessageTopicUpdate, takeLastN, List.length_drop]
    omega
  · show (takeLastN 10 (t.sampleMessages ++ [truncate messageText 100])).getLast? = _
    unfold takeLastN
    rw [List.drop_append_of_le_length (by simp)]
    exact List.getLast?_concat _
  · exact List.drop_suffix _ _
  · intro hle
    show takeLastN 10 (t.sampleMessages ++ [truncate messageText 100]) = _
    unfold takeLastN
    have : (t.sampleMessages ++ [truncate messageText 100]).length - 10 = 0 := by
      simp; omega
    rw [this, List.drop_zero]

/-- Witness for C9's conditional clause at a concrete topic. -/
theorem C9_store_message_invariants_witness :
    (storeMessageTopicUpdate
        { name := "n", description := "", keywords := [], users := [],
          sampleMessages := ["a", "b"], messageCount := 3, createdAt := "" }
        "hello" "user").sampleMessages = ["a", "b"] ++ [truncate "hello" 100] :=
  (C9_store_message_invariants
      { name := "n", description := "", keywords := [], users := [],
        sampleMessages := ["a", "b"], messageCount := 3, createdAt := "" }
      "hello" "user").2.2.2.2.2.2 (by decide)

/-! ## Levenshtein bound and `fuzzySimilarity` range -/

lemma string_one_le_length_of_ne_empty (s : String) (h : s ≠ "") : 1 ≤ s.length := by
  cases s with
  | mk data =>
    cases data with
    | nil => exact absurd rfl h
    | cons c cs => simp [String.length]

lemma levenshteinDistance_le_max_aux :
    ∀ n (s t : List Char), s.length + t.length ≤ n →
      levenshteinDistance s t ≤ max s.length t.length := by
  intro n
  induction n with
  | zero =>
    intro s t h
    match s, t with
    | [], [] => simp [levenshteinDistance]
    | x :: s, t => simp at h
    | [], y :: t => simp at h
  | succ n ih =>
    intro s t h
    match s, t with
    | [], t => simp [levenshteinDistance]
    | x :: s, [] => simp [levenshteinDistance]
    | x :: s, y :: t =>
      have h1 := ih s (y :: t) (by simp at h ⊢; omega)
      have h2 := ih (x :: s) t (by simp at h ⊢; omega)
      have h3 := ih s t (by simp at h ⊢; omega)
      rw [levenshteinDistance]
      by_cases hxy : x = y
      · rw [if_pos hxy]
        simp only [List.length_cons] at h3 ⊢
        omega
      · rw [if_neg hxy]
        simp only [List.length_cons] at h1 h2 h3 ⊢
        omega

lemma levenshteinDistance_le_max (s t : List Char) :
    levenshteinDistance s t ≤ max s.length t.length :=
  levenshteinDistance_le_max_aux (s.length + t.length) s t le_rfl

/-- Claim C7 (amended): `fuzzySimilarity` always returns a value in `[0, 1]`;
it returns `1.0` whenever the two normalized strings are identical (hence
`fuzzySimilarity x x = 1` for every `x`); and it returns `0` whenever the two
normalizations differ and either of them is empty.  (The identical-check runs
before the empty-check, so two inputs that both normalize to the empty
string — in particular two empty inputs — score `1.0`, not `0`.) -/
theorem C7_fuzzySimilarity_range (a b : String) :
    (0 ≤ fuzzySimilarity a b ∧ fuzzySimilarity a b ≤ 1) ∧
    (normalizeText a = normalizeText b → fuzzySimilarity a b = 1) ∧
    fuzzySimilarity a a = 1 ∧
    ((normalizeText a = "" ∨ normalizeText b = "") →
      normalizeText a ≠ normalizeText b → fuzzySimilarity a b = 0) := by
  have hself : fuzzySimilarity a a = 1 := by
    simp [fuzzySimilarity]
  by_cases heq : normalizeText a = normalizeText b
  · have h1 : fuzzySimilarity a b = 1 := by simp [fuzzySimilarity, heq]
    exact ⟨⟨by rw [h1]; norm_num, by rw [h1]⟩, fun _ => h1, hself, fun _ hne => absurd heq hne⟩
  · by_cases hemp : normalizeText a = "" ∨ normalizeText b = ""
    · have h0 : fuzzySimilarity a b = 0 := by
        simp only [fuzzySimilarity]
        rw [if_neg heq, if_pos hemp]
      exact ⟨⟨by rw [h0], by rw [h0]; norm_num⟩, fun hc => absurd hc heq, hself,
        fun _ _ => h0⟩
    · push_neg at hemp
      have hlen1 : 1 ≤ (normalizeText a).length :=
        string_one_le_length_of_ne_empty _ hemp.1
      have hval : fuzzySimilarity a b =
          1 - (levenshteinDistance (normalizeText a).toList (normalizeText b).toList : ℚ) /
            (max ((normalizeText a).length : ℚ) ((normalizeText b).length : ℚ)) := by
        simp only [fuzzySimilarity]
        rw [if_neg heq, if_neg (by push_neg; exact hemp)]
      have hd : (levenshteinDistance (normalizeText a).toList (normalizeText b).toList : ℚ) ≤
          max ((normalizeText a).length : ℚ) ((normalizeText b).length : ℚ) := by
        have hb := levenshteinDistance_le_max (normalizeText a).toList (normalizeText b).toList
        have hcast : ((max (normalizeText a).toList.length (normalizeText b).toList.length : ℕ) : ℚ) =
            max ((normalizeText a).length : ℚ) ((normalizeText b).length : ℚ) := by
          rw [Nat.cast_max]
          rfl
        calc (levenshteinDistance (normalizeText a).toList (normalizeText b).toList : ℚ)
            ≤ ((max (normalizeText a).toList.length (normalizeText b).toList.length : ℕ) : ℚ) :=
              Nat.cast_le.mpr hb
          _ = _ := hcast
      have hmpos : 0 < max ((normalizeText a).length : ℚ) ((normalizeText b).length : ℚ) := by
        have : (1 : ℚ) ≤ ((normalizeText a).length : ℚ) := by exact_mod_cast hlen1
        have := le_max_left ((normalizeText a).length : ℚ) ((normalizeText b).length : ℚ)
        linarith
      have hq0 : (0 : ℚ) ≤
          (levenshteinDistance (normalizeText a).toList (normalizeText b).toList : ℚ) /
            (max ((normalizeText a).length : ℚ) ((normalizeText b).length : ℚ)) :=
        div_nonneg (by positivity) (le_of_lt hmpos)
      have hq1 :
          (levenshteinDistance (normalizeText a).toList (normalizeText b).toList : ℚ) /
            (max ((normalizeText a).length : ℚ) ((normalizeText b).length : ℚ)) ≤ 1 :=
        (div_le_one hmpos).mpr hd
      refine ⟨⟨by rw [hval]; linarith, by rw [hval]; linarith⟩,
        fun hc => absurd hc heq, hself, fun hc => absurd hc (by push_neg; exact hemp)⟩

/-- Claim C7 counterexample: both inputs empty — the claim demands `0`, the
code returns `1.0` because the identical-normalization branch fires first. -/
theorem C7_counterexample :
    fuzzySimilarity "" "" = 1 ∧ fuzzySimilarity "" "" ≠ 0 := by
  constructor
  · rfl
  · decide

/-- Witness for C7 (amended) at concrete inputs: exactly one side normalizes
to empty, so the similarity is `0`. -/
theorem C7_fuzzySimilarity_range_witness : fuzzySimilarity "" "x" = 0 :=
  (C7_fuzzySimilarity_range "" "x").2.2.2 (Or.inl (by decide)) (by decide)

/-- Claim C6: `calculateConfidence` combines its four bounded factors as the
weighted sum `0.4·(normalized fused score) + 0.3·(keyword overlap) +
0.2·(name similarity) + 0.1·(activity factor)`, the fixed weights sum to 1,
and the combination is monotone: componentwise-larger factors never yield a
smaller combined confidence (in particular, increasing any single factor with
the others fixed never decreases it). -/
theorem C6_confidence_weighted_monotone :
    (∀ (t : FusedTopic) (q : String) (kws : List String),
      (calculateConfidence t q kws).confidence =
        (calculateConfidence t q kws).factors.rrfScore * 0.4 +
        (calculateConfidence t q kws).factors.keywordOverlap * 0.3 +
        (calculateConfidence t q kws).factors.nameSimilarity * 0.2 +
        (calculateConfidence t q kws).factors.recencyBoost * 0.1) ∧
    ((0.4 : ℚ) + 0.3 + 0.2 + 0.1 = 1) ∧
    (∀ (t : FusedTopic) (q : String) (kws : List String)
       (t2 : FusedTopic) (q2 : String) (kws2 : List String),
      (calculateConfidence t q kws).factors.rrfScore ≤
        (calculateConfidence t2 q2 kws2).factors.rrfScore →
      (calculateConfidence t q kws).factors.keywordOverlap ≤
        (calculateConfidence t2 q2 kws2).factors.keywordOverlap →
      (calculateConfidence t q kws).factors.nameSimilarity ≤
        (calculateConfidence t2 q2 kws2).factors.nameSimilarity →
      (calculateConfidence t q kws).factors.recencyBoost ≤
        (calculateConfidence t2 q2 kws2).factors.recencyBoost →
      (calculateConfidence t q kws).confidence ≤
        (calculateConfidence t2 q2 kws2).confidence) := by
  refine ⟨fun t q kws => rfl, by norm_num, ?_⟩
  intro t q kws t2 q2 kws2 h1 h2 h3 h4
  simp only [calculateConfidence] at h1 h2 h3 h4 ⊢
  linarith

/-- Witness for C6's monotonicity at two concrete topics differing only in
activity. -/
theorem C6_confidence_weighted_monotone_witness :
    (calculateConfidence
        { id := "t", name := "a", description := "", keywords := [], users := [],
          sampleMessages := [], messageCount := 0, rrfScore := 0 } "a" []).confidence ≤
    (calculateConfidence
        { id := "t", name := "a", description := "", keywords := [], users := [],
          sampleMessages := [], messageCount := 50, rrfScore := 0 } "a" []).confidence :=
  C6_confidence_weighted_monotone.2.2 _ "a" [] _ "a" []
    (by simp [calculateConfidence]) (by simp [calculateConfidence])
    (by simp [calculateConfidence])
    (by simp only [calculateConfidence]; norm_num [min_def])

/-! ## Lemmas about the stable descending sort -/

/-- The order produced by a stable descending sort by `key` applied to a
list that was `R`-ordered: strictly larger key first, ties resolved by the
original relation `R`. -/
def keyOrder {α : Type} (key : α → ℚ) (R : α → α → Prop) (a b : α) : Prop :=
  key b < key a ∨ (key a = key b ∧ R a b)

lemma insertDescBy_perm {α : Type} (key : α → ℚ) (x : α) (l : List α) :
    insertDescBy key x l ~ x :: l := by
  induction l with
  | nil => rfl
  | cons y ys ih =>
    simp only [insertDescBy]
    by_cases h : key y < key x
    · rw [if_pos h]
    · rw [if_neg h]
      calc y :: insertDescBy key x ys ~ y :: x :: ys := ih.cons y
        _ ~ x :: y :: ys := List.Perm.swap x y ys

lemma mem_insertDescBy {α : Type} (key : α → ℚ) {x w : α} {l : List α}
    (h : w ∈ insertDescBy key x l) : w = x ∨ w ∈ l := by
  have := (insertDescBy_perm key x l).mem_iff.mp h
  simpa using this

lemma foldl_insertDescBy_perm {α : Type} (key : α → ℚ) :
    ∀ (l acc : List α), l.foldl (fun a x => insertDescBy key x a) acc ~ acc ++ l := by
  intro l
  induction l with
  | nil => intro acc; simp
  | cons x xs ih =>
    intro acc
    calc (x :: xs).foldl (fun a x => insertDescBy key x a) acc
        = xs.foldl (fun a x => insertDescBy key x a) (insertDescBy key x acc) := rfl
      _ ~ insertDescBy key x acc ++ xs := ih _
      _ ~ (x :: acc) ++ xs := (insertDescBy_perm key x acc).append_right xs
      _ ~ acc ++ x :: xs := (List.perm_middle).symm

lemma sortDescBy_perm {α : Type} (key : α → ℚ) (l : List α) : sortDescBy key l ~ l := by
  have := foldl_insertDescBy_perm key l []
  simpa [sortDescBy] using this

lemma keyOrder_key_le {α : Type} {key : α → ℚ} {R : α → α → Prop} {a b : α}
    (h : keyOrder key R a b) : key b ≤ key a := by
  rcases h with h | ⟨h, _⟩
  · exact le_of_lt h
  · exact le_of_eq h.symm

lemma insertDescBy_pairwise {α : Type} (key : α → ℚ) (R : α → α → Prop) (x : α)
    (l : List α) (hl : l.Pairwise (keyOrder key R)) (hx : ∀ y ∈ l, R y x) :
    (insertDescBy key x l).Pairwise (keyOrder key R) := by
  induction l with
  | nil => simp [insertDescBy]
  | cons y ys ih =>
    rcases List.pairwise_cons.mp hl with ⟨hy, hys⟩
    simp only [insertDescBy]
    by_cases h : key y < key x
    · rw [if_pos h]
      refine List.pairwise_cons.mpr ⟨?_, hl⟩
      intro z hz
      rcases List.mem_cons.mp hz with rfl | hzys
      · exact Or.inl h
      · exact Or.inl (lt_of_le_of_lt (keyOrder_key_le (hy z hzys)) h)
    · rw [if_neg h]
      refine List.pairwise_cons.mpr ⟨?_, ih hys (fun y2 hy2 => hx y2 (List.mem_cons_of_mem _ hy2))⟩
      intro z hz
      rcases mem_insertDescBy key hz with rfl | hzys
      · push_neg at h
        rcases lt_or_eq_of_le h with hlt | heq
        · exact Or.inl hlt
        · exact Or.inr ⟨heq.symm, hx y (List.mem_cons_self _ _)⟩
      · exact hy z hzys

lemma foldl_insertDescBy_pairwise {α : Type} (key : α → ℚ) (R : α → α → Prop) :
    ∀ (l acc : List α), acc.Pairwise (keyOrder key R) →
      (∀ y ∈ acc, ∀ x ∈ l, R y x) → l.Pairwise R →
      (l.foldl (fun a x => insertDescBy key x a) acc).Pairwise (keyOrder key R) := by
  intro l
  induction l with
  | nil => intro acc hacc _ _; exact hacc
  | cons x xs ih =>
    intro acc hacc hcross hR
    rcases List.pairwise_cons.mp hR with ⟨hxxs, hxs⟩
    refine ih (insertDescBy key x acc) ?_ ?_ hxs
    · exact insertDescBy_pairwise key R x acc hacc
        (fun y hy => hcross y hy x (List.mem_cons_self _ _))
    · intro y hy z hz
      rcases mem_insertDescBy key hy with rfl | hyacc
      · exact hxxs z hz
      · exact hcross y hyacc z (List.mem_cons_of_mem _ hz)

lemma sortDescBy_pairwise {α : Type} (key : α → ℚ) (R : α → α → Prop) (l : List α)
    (hR : l.Pairwise R) : (sortDescBy key l).Pairwise (keyOrder key R) :=
  foldl_insertDescBy_pairwise key R l [] (List.Pairwise.nil) (by simp) hR

lemma list_pairwise_trivial {α : Type} (l : List α) : l.Pairwise (fun _ _ => True) := by
  induction l with
  | nil => exact List.Pairwise.nil
  | cons x xs ih => exact List.pairwise_cons.mpr ⟨fun _ _ => trivial, ih⟩

lemma sortDescBy_pairwise_le {α : Type} (key : α → ℚ) (l : List α) :
    (sortDescBy key l).Pairwise (fun a b => key b ≤ key a) :=
  (sortDescBy_pairwise key (fun _ _ => True) l (list_pairwise_trivial l)).imp
    (fun h => keyOrder_key_le h)

lemma sortDescBy_head_max {α : Type} (key : α → ℚ) {l : List α} {top : α}
    {rest : List α} (h : sortDescBy key l = top :: rest) :
    ∀ z ∈ sortDescBy key l, key z ≤ key top := by
  intro z hz
  have hp := sortDescBy_pairwise_le key l
  rw [h] at hp hz
  rcases List.mem_cons.mp hz with rfl | hzr
  · exact le_refl _
  · exact (List.pairwise_cons.mp hp).1 z hzr

/-! ## Lemmas about `dedupKeepFirst` and `keywordOverlap` -/

lemma foldl_dedup_mem : ∀ (l acc : List String) (x : String),
    x ∈ l.foldl (fun a k => if k ∈ a then a else a ++ [k]) acc ↔ x ∈ acc ∨ x ∈ l := by
  intro l
  induction l with
  | nil => intro acc x; simp
  | cons y ys ih =>
    intro acc x
    show x ∈ ys.foldl _ (if y ∈ acc then acc else acc ++ [y]) ↔ _
    rw [ih]
    by_cases hy : y ∈ acc
    · rw [if_pos hy]
      constructor
      · rintro (h | h)
        · exact Or.inl h
        · exact Or.inr (List.mem_cons_of_mem _ h)
      · rintro (h | h)
        · exact Or.inl h
        · rcases List.mem_cons.mp h with rfl | h
          · exact Or.inl hy
          · exact Or.inr h
    · rw [if_neg hy]
      simp only [List.mem_append, List.mem_singleton, List.mem_cons]
      tauto

lemma mem_dedupKeepFirst (l : List String) (x : String) :
    x ∈ dedupKeepFirst l ↔ x ∈ l := by
  unfold dedupKeepFirst
  rw [foldl_dedup_mem]
  simp

lemma foldl_dedup_of_all_mem : ∀ (l acc : List String),
    (∀ x ∈ l, x ∈ acc) → l.foldl (fun a k => if k ∈ a then a else a ++ [k]) acc = acc := by
  intro l
  induction l with
  | nil => intro acc _; rfl
  | cons y ys ih =>
    intro acc h
    show ys.foldl _ (if y ∈ acc then acc else acc ++ [y]) = acc
    rw [if_pos (h y (List.mem_cons_self _ _))]
    exact ih acc (fun x hx => h x (List.mem_cons_of_mem _ hx))

lemma foldl_dedup_nodup_append : ∀ (l acc : List String),
    l.Nodup → (∀ x ∈ l, x ∉ acc) →
    l.foldl (fun a k => if k ∈ a then a else a ++ [k]) acc = acc ++ l := by
  intro l
  induction l with
  | nil => intro acc _ _; simp
  | cons y ys ih =>
    intro acc hnd hdis
    show ys.foldl _ (if y ∈ acc then acc else acc ++ [y]) = acc ++ y :: ys
    rw [if_neg (hdis y (List.mem_cons_self _ _))]
    rw [ih (acc ++ [y]) (List.Nodup.of_cons hnd) ?_]
    · simp
    · intro x hx
      simp only [List.mem_append, List.mem_singleton]
      push_neg
      refine ⟨fun hc => hdis x (List.mem_cons_of_mem _ hx) hc, ?_⟩
      rintro rfl
      exact (List.nodup_cons.mp hnd).1 hx

lemma dedupKeepFirst_nodup : ∀ (l : List String), (dedupKeepFirst l).Nodup := by
  have aux : ∀ (l acc : List String), acc.Nodup →
      (l.foldl (fun a k => if k ∈ a then a else a ++ [k]) acc).Nodup := by
    intro l
    induction l with
    | nil => intro acc h; exact h
    | cons y ys ih =>
      intro acc h
      show (ys.foldl _ (if y ∈ acc then acc else acc ++ [y])).Nodup
      by_cases hy : y ∈ acc
      · rw [if_pos hy]; exact ih acc h
      · rw [if_neg hy]
        refine ih _ ?_
        rw [List.nodup_append]
        exact ⟨h, List.nodup_singleton _, by simpa using hy⟩
  intro l
  exact aux l [] List.nodup_nil

lemma dedupKeepFirst_of_nodup (l : List String) (h : l.Nodup) : dedupKeepFirst l = l := by
  unfold dedupKeepFirst
  have := foldl_dedup_nodup_append l [] h (by simp)
  simpa using this

lemma dedupKeepFirst_self_append (l : List String) (h : l.Nodup) :
    dedupKeepFirst (l ++ l) = l := by
  unfold dedupKeepFirst
  rw [List.foldl_append]
  have h1 : l.foldl (fun a k => if k ∈ a then a else a ++ [k]) [] = l := by
    have := foldl_dedup_nodup_append l [] h (by simp)
    simpa using this
  rw [h1]
  exact foldl_dedup_of_all_mem l l (fun x hx => hx)

lemma dedupKeepFirst_ne_nil (l : List String) (h : l ≠ []) : dedupKeepFirst l ≠ [] := by
  intro hc
  match l, h with
  | x :: xs, _ =>
    have : x ∈ dedupKeepFirst (x :: xs) := (mem_dedupKeepFirst _ _).mpr (List.mem_cons_self _ _)
    rw [hc] at this
    exact List.not_mem_nil x this

/-- `keywordOverlap` of a nonempty list with itself is `1` (every normalized
keyword matches itself exactly, and the union is the set itself). -/
lemma keywordOverlap_self (ks : List String) (h : ks ≠ []) : keywordOverlap ks ks = 1 := by
  have hne : ¬(ks = [] ∨ ks = []) := by simpa using h
  simp only [keywordOverlap]
  rw [if_neg hne]
  have hnodup := dedupKeepFirst_nodup (ks.map normalizeText)
  have hfilter :
      (dedupKeepFirst (ks.map normalizeText)).filter
        (fun k1 => (dedupKeepFirst (ks.map normalizeText)).any
          (fun k2 => k1 = k2 || fuzzySimilarity k1 k2 > 0.8)) =
      dedupKeepFirst (ks.map normalizeText) := by
    apply List.filter_eq_self.mpr
    intro k1 hk1
    apply List.any_eq_true.mpr
    exact ⟨k1, hk1, by simp⟩
  rw [hfilter, dedupKeepFirst_self_append _ hnodup]
  have hlen : (dedupKeepFirst (ks.map normalizeText)).length ≠ 0 := by
    intro hc
    exact dedupKeepFirst_ne_nil (ks.map normalizeText)
      (by simpa using h) (List.length_eq_zero.mp hc)
  have : ((dedupKeepFirst (ks.map normalizeText)).length : ℚ) ≠ 0 := by
    exact_mod_cast hlen
  field_simp

/-- `fuzzySimilarity` is `1` whenever the normalizations agree (shared helper,
independent of the claim theorems). -/
lemma fuzzySimilarity_of_norm_eq (a b : String) (h : normalizeText a = normalizeText b) :
    fuzzySimilarity a b = 1 := by
  simp [fuzzySimilarity, h]

/-! ## Lemmas about the duplicate validator -/

lemma analyze_suggestions_def (p : ProposedTopic) (topics : List ValidatorTopic) :
    (analyzeTopicCreation p topics).suggestions =
      sortDescBy (fun s : Suggestion => s.combinedScore)
        (topics.filterMap (fun t => if surfaces p t then some (mkSuggestion p t) else none)) :=
  rfl

lemma analyze_shouldCreate_def (p : ProposedTopic) (topics : List ValidatorTopic) :
    (analyzeTopicCreation p topics).shouldCreate =
      (match (analyzeTopicCreation p topics).suggestions with
       | [] => true
       | top :: _ => decide (top.combinedScore < 0.5)) :=
  rfl

lemma mem_suggestion_pool_iff (p : ProposedTopic) (topics : List ValidatorTopic)
    (s : Suggestion) :
    s ∈ topics.filterMap (fun t => if surfaces p t then some (mkSuggestion p t) else none) ↔
      ∃ t ∈ topics, surfaces p t = true ∧ s = mkSuggestion p t := by
  rw [List.mem_filterMap]
  constructor
  · rintro ⟨t, ht, hf⟩
    by_cases hs : surfaces p t
    · rw [if_pos hs] at hf
      exact ⟨t, ht, hs, (Option.some_inj.mp hf).symm⟩
    · rw [if_neg hs] at hf
      cases hf
  · rintro ⟨t, ht, hs, rfl⟩
    exact ⟨t, ht, by rw [if_pos hs]⟩

lemma mem_suggestions_iff (p : ProposedTopic) (topics : List ValidatorTopic) (s : Suggestion) :
    s ∈ (analyzeTopicCreation p topics).suggestions ↔
      ∃ t ∈ topics, surfaces p t = true ∧ s = mkSuggestion p t := by
  rw [analyze_suggestions_def, (sortDescBy_perm _ _).mem_iff, mem_suggestion_pool_iff]

lemma surfaces_of_combined_ge (p : ProposedTopic) (t : ValidatorTopic)
    (h : (0.5 : ℚ) ≤ combinedScore p t) : surfaces p t = true := by
  unfold surfaces
  simp [h]

lemma mkSuggestion_combined (p : ProposedTopic) (t : ValidatorTopic) :
    (mkSuggestion p t).combinedScore = combinedScore p t := rfl

lemma mkSuggestion_recommendation (p : ProposedTopic) (t : ValidatorTopic) :
    (mkSuggestion p t).recommendation =
      if (0.7 : ℚ) ≤ combinedScore p t then "use_existing" else "consider_merge" := rfl

lemma suggestions_head_max (p : ProposedTopic) (topics : List ValidatorTopic)
    {top : Suggestion} {rest : List Suggestion}
    (h : (analyzeTopicCreation p topics).suggestions = top :: rest) :
    ∀ s ∈ (analyzeTopicCreation p topics).suggestions, s.combinedScore ≤ top.combinedScore := by
  rw [analyze_suggestions_def] at h ⊢
  exact sortDescBy_head_max (fun s : Suggestion => s.combinedScore) h

lemma analyze_shouldCreate_iff (p : ProposedTopic) (topics : List ValidatorTopic) :
    (analyzeTopicCreation p topics).shouldCreate = true ↔
      ∀ t ∈ topics, combinedScore p t < 0.5 := by
  constructor
  · intro h t ht
    by_contra hge
    push_neg at hge
    have hmem : mkSuggestion p t ∈ (analyzeTopicCreation p topics).suggestions :=
      (mem_suggestions_iff p topics _).mpr ⟨t, ht, surfaces_of_combined_ge p t hge, rfl⟩
    cases hs : (analyzeTopicCreation p topics).suggestions with
    | nil =>
      rw [hs] at hmem
      exact List.not_mem_nil _ hmem
    | cons top rest =>
      rw [analyze_shouldCreate_def, hs] at h
      have h2 : decide (top.combinedScore < 0.5) = true := h
      have htop : top.combinedScore < 0.5 := of_decide_eq_true h2
      have hle : (mkSuggestion p t).combinedScore ≤ top.combinedScore := by
        have hmax := suggestions_head_max p topics hs
        exact hmax _ hmem
      rw [mkSuggestion_combined] at hle
      linarith
  · intro h
    rw [analyze_shouldCreate_def]
    cases hs : (analyzeTopicCreation p topics).suggestions with
    | nil => rfl
    | cons top rest =>
      have hmem : top ∈ (analyzeTopicCreation p topics).suggestions := by
        rw [hs]
        exact List.mem_cons_self _ _
      obtain ⟨t, ht, _, rfl⟩ := (mem_suggestions_iff p topics _).mp hmem
      exact decide_eq_true (h t ht)

/-- Claim C3: the duplicate validator returns `shouldCreate = true` iff no
existing topic reaches combined score `0.5` (with
`combined = 0.5·name + 0.2·description + 0.3·keywords`); otherwise the top
suggestion has maximal combined score among all existing topics and carries
recommendation `"use_existing"` when its combined score is at least `0.7` and
`"consider_merge"` when it is at least `0.5` and below `0.7`; and an empty
topic list yields `shouldCreate = true` with confidence `1.0`. -/
theorem C3_duplicate_validator (p : ProposedTopic) (topics : List ValidatorTopic) :
    (topics = [] → validateNewTopic p topics =
      { shouldCreate := true, confidence := 1, suggestions := [] }) ∧
    ((validateNewTopic p topics).shouldCreate = true ↔
      ∀ t ∈ topics, combinedScore p t < 0.5) ∧
    ((validateNewTopic p topics).shouldCreate = false →
      ∃ top rest, (validateNewTopic p topics).suggestions = top :: rest ∧
        (∃ t ∈ topics, top = mkSuggestion p t) ∧
        (∀ t ∈ topics, combinedScore p t ≤ top.combinedScore) ∧
        (0.5 : ℚ) ≤ top.combinedScore ∧
        ((0.7 : ℚ) ≤ top.combinedScore → top.recommendation = "use_existing") ∧
        (top.combinedScore < 0.7 → top.recommendation = "consider_merge")) := by
  by_cases hnil : topics = []
  · subst hnil
    refine ⟨fun _ => rfl, ?_, ?_⟩
    · simp [validateNewTopic]
    · intro h
      simp [validateNewTopic] at h
  · have hv : validateNewTopic p topics = analyzeTopicCreation p topics := by
      simp [validateNewTopic, hnil]
    refine ⟨fun hc => absurd hc hnil, ?_, ?_⟩
    · rw [hv]
      exact analyze_shouldCreate_iff p topics
    · rw [hv]
      intro hfalse
      cases hs : (analyzeTopicCreation p topics).suggestions with
      | nil =>
        rw [analyze_shouldCreate_def, hs] at hfalse
        cases hfalse
      | cons top rest =>
        have htopge : (0.5 : ℚ) ≤ top.combinedScore := by
          rw [analyze_shouldCreate_def, hs] at hfalse
          have h2 : decide (top.combinedScore < 0.5) = false := hfalse
          have := of_decide_eq_false h2
          linarith [not_lt.mp this]
        have hmemtop : top ∈ (analyzeTopicCreation p topics).suggestions := by
          rw [hs]
          exact List.mem_cons_self _ _
        obtain ⟨t0, ht0, _, htop⟩ := (mem_suggestions_iff p topics _).mp hmemtop
        refine ⟨top, rest, rfl, ⟨t0, ht0, htop⟩, ?_, htopge, ?_, ?_⟩
        · intro t ht
          by_cases hge : (0.5 : ℚ) ≤ combinedScore p t
          · have hmem : mkSuggestion p t ∈ (analyzeTopicCreation p topics).suggestions :=
              (mem_suggestions_iff p topics _).mpr
                ⟨t, ht, surfaces_of_combined_ge p t hge, rfl⟩
            have := suggestions_head_max p topics hs _ hmem
            rwa [mkSuggestion_combined] at this
          · push_neg at hge
            linarith
        · intro h07
          rw [htop, mkSuggestion_recommendation]
          rw [htop, mkSuggestion_combined] at h07
          rw [if_pos h07]
        · intro h07
          rw [htop, mkSuggestion_recommendation]
          rw [htop, mkSuggestion_combined] at h07
          rw [if_neg (not_le.mpr h07)]

/-- Witness for C3 at a concrete proposal and the empty taxonomy. -/
theorem C3_duplicate_validator_witness :
    validateNewTopic { name := "n", description := "d", keywords := ["k"] } [] =
      { shouldCreate := true, confidence := 1, suggestions := [] } :=
  (C3_duplicate_validator { name := "n", description := "d", keywords := ["k"] } []).1 rfl

/-- Claim C8 counterexample: a proposal identical to an existing topic whose
description is empty and whose keyword list is empty scores only
`0.5·1 + 0.2·0 + 0.3·0 = 0.5`: `shouldCreate` is `false` as the claim says,
but the top suggestion's recommendation is `"consider_merge"`, not
`"use_existing"`, and its combined score is `0.5 < 0.9`. -/
theorem C8_counterexample :
    (validateNewTopic { name := "a", description := "", keywords := [] }
        [{ id := "t1", name := "a", description := "", keywords := [] }]).shouldCreate = false ∧
    ((validateNewTopic { name := "a", description := "", keywords := [] }
        [{ id := "t1", name := "a", description := "", keywords := [] }]).suggestions.map
      (fun s => s.recommendation)) = ["consider_merge"] ∧
    ((validateNewTopic { name := "a", description := "", keywords := [] }
        [{ id := "t1", name := "a", description := "", keywords := [] }]).suggestions.map
      (fun s => s.combinedScore)) = [1/2] := by
  have hc : combinedScore { name := "a", description := "", keywords := [] }
      { id := "t1", name := "a", description := "", keywords := [] } = 0.5 := by
    have h1 : vNameSimilarity { name := "a", description := "", keywords := [] }
        { id := "t1", name := "a", description := "", keywords := [] } = 1 :=
      fuzzySimilarity_of_norm_eq _ _ rfl
    have h2 : vDescSimilarity { name := "a", description := "", keywords := [] }
        { id := "t1", name := "a", description := "", keywords := [] } = 0 := by
      unfold vDescSimilarity
      rw [if_pos rfl]
    have h3 : vKwOverlap { name := "a", description := "", keywords := [] }
        { id := "t1", name := "a", description := "", keywords := [] } = 0 := by
      unfold vKwOverlap keywordOverlap
      rw [if_pos (Or.inl rfl)]
    unfold combinedScore
    rw [h1, h2, h3]
    norm_num
  have hsurf : surfaces { name := "a", description := "", keywords := [] }
      { id := "t1", name := "a", description := "", keywords := [] } = true :=
    surfaces_of_combined_ge _ _ (ge_of_eq hc)
  have hsugg : (analyzeTopicCreation { name := "a", description := "", keywords := [] }
      [{ id := "t1", name := "a", description := "", keywords := [] }]).suggestions =
      [mkSuggestion { name := "a", description := "", keywords := [] }
        { id := "t1", name := "a", description := "", keywords := [] }] := by
    rw [analyze_suggestions_def]
    rw [List.filterMap_cons, if_pos hsurf]
    rfl
  have hsuggv : (validateNewTopic { name := "a", description := "", keywords := [] }
      [{ id := "t1", name := "a", description := "", keywords := [] }]).suggestions =
      [mkSuggestion { name := "a", description := "", keywords := [] }
        { id := "t1", name := "a", description := "", keywords := [] }] := hsugg
  refine ⟨?_, ?_, ?_⟩
  · show (analyzeTopicCreation _ _).shouldCreate = false
    rw [analyze_shouldCreate_def, hsugg]
    exact decide_eq_false (by rw [mkSuggestion_combined, hc]; exact lt_irrefl _)
  · rw [hsuggv]
    simp only [List.map_cons, List.map_nil]
    rw [mkSuggestion_recommendation]
    rw [if_neg (by rw [hc]; norm_num)]
  · rw [hsuggv]
    simp only [List.map_cons, List.map_nil]
    rw [mkSuggestion_combined, hc]
    norm_num

/-- Claim C8 (amended): for every proposal identical in name, description and
keywords to some existing topic, where the description is nonempty and the
keyword list is nonempty, the validator returns `shouldCreate = false` and the
top suggestion has recommendation `"use_existing"` with combined score at
least `0.9` (the identical topic itself scores exactly `1`).  Without the
nonemptiness conditions the combined score can drop to `0.5` and the
recommendation to `"consider_merge"`. -/
theorem C8_identical_proposal_duplicate (topics : List ValidatorTopic) (T : ValidatorTopic)
    (p : ProposedTopic) (hT : T ∈ topics) (hname : p.name = T.name)
    (hdesc : p.description = T.description) (hkw : p.keywords = T.keywords)
    (hdne : T.description ≠ "") (hkne : T.keywords ≠ []) :
    (validateNewTopic p topics).shouldCreate = false ∧
    combinedScore p T = 1 ∧
    ∃ top rest, (validateNewTopic p topics).suggestions = top :: rest ∧
      top.recommendation = "use_existing" ∧ (0.9 : ℚ) ≤ top.combinedScore := by
  have hnil : topics ≠ [] := List.ne_nil_of_mem hT
  have hv : validateNewTopic p topics = analyzeTopicCreation p topics := by
    simp [validateNewTopic, hnil]
  have hcomb : combinedScore p T = 1 := by
    have h1 : vNameSimilarity p T = 1 :=
      fuzzySimilarity_of_norm_eq _ _ (by rw [hname])
    have h2 : vDescSimilarity p T = 1 := by
      unfold vDescSimilarity
      rw [if_neg (by rw [hdesc]; exact hdne)]
      exact fuzzySimilarity_of_norm_eq _ _ (by rw [hdesc])
    have h3 : vKwOverlap p T = 1 := by
      unfold vKwOverlap
      rw [hkw]
      exact keywordOverlap_self _ hkne
    unfold combinedScore
    rw [h1, h2, h3]
    norm_num
  have hmem : mkSuggestion p T ∈ (analyzeTopicCreation p topics).suggestions :=
    (mem_suggestions_iff p topics _).mpr
      ⟨T, hT, surfaces_of_combined_ge p T (by rw [hcomb]; norm_num), rfl⟩
  cases hs : (analyzeTopicCreation p topics).suggestions with
  | nil =>
    rw [hs] at hmem
    exact absurd hmem (List.not_mem_nil _)
  | cons top rest =>
    have htopge : (1 : ℚ) ≤ top.combinedScore := by
      have := suggestions_head_max p topics hs _ hmem
      rw [mkSuggestion_combined, hcomb] at this
      exact this
    obtain ⟨t0, ht0, _, htop⟩ := (mem_suggestions_iff p topics _).mp (by
      rw [hs]; exact List.mem_cons_self _ _)
    refine ⟨?_, hcomb, top, rest, by rw [hv]; exact hs, ?_, by linarith⟩
    · rw [hv, analyze_shouldCreate_def, hs]
      exact decide_eq_false (not_lt.mpr (by linarith))
    · rw [htop, mkSuggestion_recommendation]
      rw [htop, mkSuggestion_combined] at htopge
      rw [if_pos (by linarith)]

/-- Witness for C8 (amended) at a concrete taxonomy and identical proposal. -/
theorem C8_identical_proposal_duplicate_witness :
    (validateNewTopic { name := "bug", description := "bug reports", keywords := ["bug"] }
        [{ id := "t1", name := "bug", description := "bug reports",
           keywords := ["bug"] }]).shouldCreate = false :=
  (C8_identical_proposal_duplicate
      [{ id := "t1", name := "bug", description := "bug reports", keywords := ["bug"] }]
      { id := "t1", name := "bug", description := "bug reports", keywords := ["bug"] }
      { name := "bug", description := "bug reports", keywords := ["bug"] }
      (List.mem_singleton.mpr rfl) rfl rfl rfl (by decide) (by decide)).1

/-! ## Claim C1 infrastructure: what `reciprocalRankFusion` accumulates

`scoreOf` reads a topic's accumulated score out of the insertion-ordered
fused map (first match; ids are unique by construction).
`entryContribution` is the RRF contribution of one raw hit to one id;
`listContribution` is the claim-level "contribution of one ranked list to one
id" — `1/(k + rank)` of the entry carrying that id, `0` when absent.
`firstSeenIds` is the insertion order of the fused map's keys; `idIdx` is the
position of an id in that order. -/

def scoreOf : List FusedTopic → String → ℚ
  | [], _ => 0
  | t :: ts, id => if t.id = id then t.rrfScore else scoreOf ts id

def entryContribution (k : ℚ) (id : String) (e : SearchEntry) : ℚ :=
  if truthyId e = some id then 1 / (k + effRank e) else 0

def entriesContribution (k : ℚ) (es : List SearchEntry) (id : String) : ℚ :=
  (es.map (entryContribution k id)).sum

def listContribution (k : ℚ) (l : List SearchEntry) (id : String) : ℚ :=
  match l.find? (fun e => truthyId e = some id) with
  | some e => 1 / (k + effRank e)
  | none => 0

def firstSeenIds (sr : List (List SearchEntry)) : List String :=
  dedupKeepFirst (sr.flatten.filterMap truthyId)

def idIdx : List String → String → Nat
  | [], _ => 0
  | s :: ss, x => if s = x then 0 else idIdx ss x + 1

lemma scoreOf_eq_zero_of_not_any (id : String) :
    ∀ acc : List FusedTopic, acc.any (fun t => t.id = id) = false → scoreOf acc id = 0 := by
  intro acc
  induction acc with
  | nil => intro _; rfl
  | cons t ts ih =>
    intro h
    rw [List.any_cons] at h
    rcases Bool.or_eq_false_iff.mp h with ⟨h1, h2⟩
    show (if t.id = id then t.rrfScore else scoreOf ts id) = 0
    rw [if_neg (by simpa using h1)]
    exact ih h2

lemma scoreOf_append_other (d : FusedTopic) (id : String) (hne : d.id ≠ id) :
    ∀ acc : List FusedTopic, scoreOf (acc ++ [d]) id = scoreOf acc id := by
  intro acc
  induction acc with
  | nil =>
    show (if d.id = id then d.rrfScore else scoreOf [] id) = scoreOf [] id
    rw [if_neg hne]
  | cons t ts ih =>
    show (if t.id = id then t.rrfScore else scoreOf (ts ++ [d]) id) = _
    by_cases h : t.id = id
    · rw [if_pos h]
      exact (if_pos h).symm
    · rw [if_neg h, ih]
      exact (if_neg h).symm

lemma scoreOf_append_self (d : FusedTopic) (id : String) (hd : d.id = id) :
    ∀ acc : List FusedTopic, acc.any (fun t => t.id = id) = false →
      scoreOf (acc ++ [d]) id = d.rrfScore := by
  intro acc
  induction acc with
  | nil =>
    intro _
    show (if d.id = id then d.rrfScore else scoreOf [] id) = d.rrfScore
    rw [if_pos hd]
  | cons t ts ih =>
    intro h
    rw [List.any_cons] at h
    rcases Bool.or_eq_false_iff.mp h with ⟨h1, h2⟩
    show (if t.id = id then t.rrfScore else scoreOf (ts ++ [d]) id) = d.rrfScore
    rw [if_neg (by simpa using h1)]
    exact ih h2

lemma fusedTopic_update_id (t : FusedTopic) (q : ℚ) :
    ({ t with rrfScore := t.rrfScore + q } : FusedTopic).id = t.id := rfl

lemma scoreOf_map_update_self (j : String) (q : ℚ) :
    ∀ acc : List FusedTopic, acc.any (fun t => t.id = j) = true →
      scoreOf (acc.map (fun t => if t.id = j then { t with rrfScore := t.rrfScore + q } else t)) j
        = scoreOf acc j + q := by
  intro acc
  induction acc with
  | nil => intro h; cases h
  | cons t ts ih =>
    intro h
    simp only [List.map_cons, scoreOf]
    by_cases ht : t.id = j
    · rw [if_pos ht, fusedTopic_update_id, if_pos ht, if_pos ht]
    · rw [List.any_cons] at h
      have h2 : ts.any (fun t => t.id = j) = true := by
        rcases Bool.or_eq_true_iff.mp h with h1 | h1
        · exact absurd (by simpa using h1) ht
        · exact h1
      rw [if_neg ht, if_neg ht, if_neg ht, ih h2]

lemma scoreOf_map_update_other (j id : String) (q : ℚ) (hne : j ≠ id) :
    ∀ acc : List FusedTopic,
      scoreOf (acc.map (fun t => if t.id = j then { t with rrfScore := t.rrfScore + q } else t))
        id = scoreOf acc id := by
  intro acc
  induction acc with
  | nil => rfl
  | cons t ts ih =>
    simp only [List.map_cons, scoreOf]
    by_cases ht : t.id = j
    · have hnid : ¬t.id = id := fun hc => hne (ht.symm.trans hc)
      rw [if_pos ht, fusedTopic_update_id, if_neg hnid, if_neg hnid, ih]
    · rw [if_neg ht]
      by_cases hid : t.id = id
      · rw [if_pos hid, if_pos hid]
      · rw [if_neg hid, if_neg hid, ih]

lemma rrfStep_eq_none (k : ℚ) (acc : List FusedTopic) (e : SearchEntry)
    (h : truthyId e = none) : rrfStep k acc e = acc := by
  unfold rrfStep
  rw [h]

lemma rrfStep_eq_update (k : ℚ) (acc : List FusedTopic) (e : SearchEntry) (j : String)
    (h : truthyId e = some j) (hany : acc.any (fun t => t.id = j) = true) :
    rrfStep k acc e = acc.map (fun t => if t.id = j then
      { t with rrfScore := t.rrfScore + 1 / (k + effRank e) } else t) := by
  unfold rrfStep
  rw [h]
  dsimp only
  rw [if_pos hany]

lemma rrfStep_eq_append (k : ℚ) (acc : List FusedTopic) (e : SearchEntry) (j : String)
    (h : truthyId e = some j) (hany : acc.any (fun t => t.id = j) = false) :
    rrfStep k acc e = acc ++ [entryData j e (1 / (k + effRank e))] := by
  unfold rrfStep
  rw [h]
  dsimp only
  rw [if_neg (by rw [hany]; exact Bool.false_ne_true)]

/-- One fold step changes exactly the processed entry's topic score, by its
RRF contribution. -/
lemma scoreOf_rrfStep (k : ℚ) (acc : List FusedTopic) (e : SearchEntry) (id : String) :
    scoreOf (rrfStep k acc e) id = scoreOf acc id + entryContribution k id e := by
  cases hte : truthyId e with
  | none =>
    rw [rrfStep_eq_none k acc e hte]
    unfold entryContribution
    rw [hte, if_neg (by exact fun hc => Option.noConfusion hc), add_zero]
  | some j =>
    by_cases hj : j = id
    · subst hj
      have hcontrib : entryContribution k j e = 1 / (k + effRank e) := by
        unfold entryContribution
        rw [hte, if_pos rfl]
      rw [hcontrib]
      by_cases hany : acc.any (fun t => t.id = j) = true
      · rw [rrfStep_eq_update k acc e j hte hany]
        exact scoreOf_map_update_self j _ acc hany
      · have hfalse : acc.any (fun t => t.id = j) = false := by
          cases h : acc.any (fun t => t.id = j)
          · rfl
          · exact absurd h hany
        rw [rrfStep_eq_append k acc e j hte hfalse]
        rw [scoreOf_append_self _ j rfl acc hfalse, scoreOf_eq_zero_of_not_any j acc hfalse,
          zero_add]
        rfl
    · have hcontrib : entryContribution k id e = 0 := by
        unfold entryContribution
        rw [hte, if_neg (fun hc => hj (Option.some_inj.mp hc))]
      rw [hcontrib, add_zero]
      by_cases hany : acc.any (fun t => t.id = j) = true
      · rw [rrfStep_eq_update k acc e j hte hany]
        exact scoreOf_map_update_other j id _ hj acc
      · have hfalse : acc.any (fun t => t.id = j) = false := by
          cases h : acc.any (fun t => t.id = j)
          · rfl
          · exact absurd h hany
        rw [rrfStep_eq_append k acc e j hte hfalse]
        exact scoreOf_append_other _ id hj acc

lemma scoreOf_foldl (k : ℚ) :
    ∀ (es : List SearchEntry) (acc : List FusedTopic) (id : String),
      scoreOf (es.foldl (rrfStep k) acc) id = scoreOf acc id + entriesContribution k es id := by
  intro es
  induction es with
  | nil =>
    intro acc id
    simp [entriesContribution]
  | cons e es ih =>
    intro acc id
    show scoreOf (es.foldl (rrfStep k) (rrfStep k acc e)) id = _
    rw [ih, scoreOf_rrfStep]
    unfold entriesContribution
    rw [List.map_cons, List.sum_cons]
    ring

lemma any_id_iff_mem_map (acc : List FusedTopic) (j : String) :
    acc.any (fun t => t.id = j) = true ↔ j ∈ acc.map (fun t => t.id) := by
  rw [List.any_eq_true, List.mem_map]
  constructor
  · rintro ⟨t, ht, hj⟩
    exact ⟨t, ht, by simpa using hj⟩
  · rintro ⟨t, ht, hj⟩
    exact ⟨t, ht, by simpa using hj⟩

lemma map_update_map_id (j : String) (q : ℚ) (acc : List FusedTopic) :
    (acc.map (fun t => if t.id = j then { t with rrfScore := t.rrfScore + q } else t)).map
      (fun t => t.id) = acc.map (fun t => t.id) := by
  rw [List.map_map]
  apply List.map_congr_left
  intro t _
  show (if t.id = j then ({ t with rrfScore := t.rrfScore + q } : FusedTopic) else t).id = t.id
  by_cases ht : t.id = j
  · simp [ht]
  · simp [ht]

lemma foldl_rrf_map_id (k : ℚ) :
    ∀ (es : List SearchEntry) (acc : List FusedTopic),
      (es.foldl (rrfStep k) acc).map (fun t => t.id) =
        (es.filterMap truthyId).foldl (fun a x => if x ∈ a then a else a ++ [x])
          (acc.map (fun t => t.id)) := by
  intro es
  induction es with
  | nil => intro acc; rfl
  | cons e es ih =>
    intro acc
    show (es.foldl (rrfStep k) (rrfStep k acc e)).map _ = _
    cases hte : truthyId e with
    | none =>
      rw [List.filterMap_cons_none hte, rrfStep_eq_none k acc e hte]
      exact ih acc
    | some j =>
      rw [List.filterMap_cons_some hte]
      show _ = List.foldl _
        (if j ∈ acc.map (fun t => t.id) then acc.map (fun t => t.id)
         else acc.map (fun t => t.id) ++ [j]) (es.filterMap truthyId)
      by_cases hany : acc.any (fun t => t.id = j) = true
      · rw [rrfStep_eq_update k acc e j hte hany, ih, map_update_map_id]
        have hmem : j ∈ acc.map (fun t => t.id) := (any_id_iff_mem_map acc j).mp hany
        rw [if_pos hmem]
      · have hfalse : acc.any (fun t => t.id = j) = false := by
          cases h : acc.any (fun t => t.id = j)
          · rfl
          · exact absurd h hany
        rw [rrfStep_eq_append k acc e j hte hfalse, ih]
        have hnmem : j ∉ acc.map (fun t => t.id) := fun hc =>
          hany ((any_id_iff_mem_map acc j).mpr hc)
        rw [if_neg hnmem, List.map_append]
        rfl

lemma rrfAccum_map_id (k : ℚ) (sr : List (List SearchEntry)) :
    (rrfAccum k sr).map (fun t => t.id) = firstSeenIds sr := by
  unfold rrfAccum firstSeenIds dedupKeepFirst
  rw [foldl_rrf_map_id]
  rfl

lemma scoreOf_mem (acc : List FusedTopic) (hnd : (acc.map (fun t => t.id)).Nodup) :
    ∀ t ∈ acc, t.rrfScore = scoreOf acc t.id := by
  induction acc with
  | nil => intro t ht; cases ht
  | cons h tl ih =>
    rw [List.map_cons, List.nodup_cons] at hnd
    obtain ⟨hout, hnd2⟩ := hnd
    intro t ht
    simp only [scoreOf]
    rcases List.mem_cons.mp ht with rfl | htl
    · rw [if_pos rfl]
    · have hne : h.id ≠ t.id := fun hc => hout (hc ▸ List.mem_map_of_mem _ htl)
      rw [if_neg hne]
      exact ih hnd2 t htl

lemma entriesContribution_eq_listContribution (k : ℚ) (id : String) :
    ∀ l : List SearchEntry, (l.filterMap truthyId).Nodup →
      entriesContribution k l id = listContribution k l id := by
  intro l
  induction l with
  | nil => intro _; rfl
  | cons e l ih =>
    intro hnd
    rw [List.filterMap_cons] at hnd
    unfold entriesContribution listContribution
    rw [List.map_cons, List.sum_cons]
    by_cases he : truthyId e = some id
    · rw [List.find?_cons_of_pos _ (by simpa using he)]
      have hrest : (l.map (entryContribution k id)).sum = 0 := by
        rw [he] at hnd
        have hnotin : id ∉ l.filterMap truthyId := (List.nodup_cons.mp hnd).1
        have hzero : ∀ e2 ∈ l, entryContribution k id e2 = 0 := by
          intro e2 he2
          unfold entryContribution
          rw [if_neg (fun hc => hnotin (List.mem_filterMap.mpr ⟨e2, he2, hc⟩))]
        calc (l.map (entryContribution k id)).sum
            = (l.map (fun _ => (0 : ℚ))).sum := by
              rw [List.map_congr_left hzero]
          _ = 0 := by simp
      have hpos : entryContribution k id e = 1 / (k + effRank e) := by
        unfold entryContribution
        rw [if_pos he]
      rw [hpos, hrest, add_zero]
    · rw [List.find?_cons_of_neg _ (by simpa using he)]
      have h0 : entryContribution k id e = 0 := by
        unfold entryContribution
        rw [if_neg he]
      rw [h0, zero_add]
      have hnd2 : (l.filterMap truthyId).Nodup := by
        cases hte : truthyId e with
        | none => rwa [hte] at hnd
        | some j =>
          rw [hte] at hnd
          exact (List.nodup_cons.mp hnd).2
      have := ih hnd2
      unfold entriesContribution listContribution at this
      exact this

lemma entriesContribution_flatten (k : ℚ) (id : String) (sr : List (List SearchEntry)) :
    entriesContribution k sr.flatten id = (sr.map (fun l => entriesContribution k l id)).sum := by
  induction sr with
  | nil => rfl
  | cons l ls ih =>
    unfold entriesContribution at *
    rw [List.flatten_cons, List.map_append, List.sum_append, List.map_cons, List.sum_cons, ih]

lemma idIdx_cons_self (s : String) (ss : List String) : idIdx (s :: ss) s = 0 := by
  simp [idIdx]

lemma idIdx_cons_ne (s x : String) (ss : List String) (h : s ≠ x) :
    idIdx (s :: ss) x = idIdx ss x + 1 := by
  simp [idIdx, h]

lemma pairwise_idIdx (l : List FusedTopic) (hnd : (l.map (fun t => t.id)).Nodup) :
    l.Pairwise (fun a b =>
      idIdx (l.map (fun t => t.id)) a.id < idIdx (l.map (fun t => t.id)) b.id) := by
  induction l with
  | nil => exact List.Pairwise.nil
  | cons h tl ih =>
    rw [List.map_cons, List.nodup_cons] at hnd
    obtain ⟨hout, hnd2⟩ := hnd
    refine List.pairwise_cons.mpr ⟨?_, ?_⟩
    · intro b hb
      have hbne : h.id ≠ b.id := fun hc => hout (hc ▸ List.mem_map_of_mem _ hb)
      show idIdx (h.id :: tl.map (fun t => t.id)) h.id <
        idIdx (h.id :: tl.map (fun t => t.id)) b.id
      rw [idIdx_cons_self, idIdx_cons_ne _ _ _ hbne]
      omega
    · have hp := ih hnd2
      refine List.Pairwise.imp_of_mem ?_ hp
      intro a b ha hb hab
      have hane : h.id ≠ a.id := fun hc => hout (hc ▸ List.mem_map_of_mem _ ha)
      have hbne : h.id ≠ b.id := fun hc => hout (hc ▸ List.mem_map_of_mem _ hb)
      show idIdx (h.id :: tl.map (fun t => t.id)) a.id <
        idIdx (h.id :: tl.map (fun t => t.id)) b.id
      rw [idIdx_cons_ne _ _ _ hane, idIdx_cons_ne _ _ _ hbne]
      omega

/-- Claim C1: for every collection of ranked candidate lists whose items
carry a truthy id, a 1-based rank, and per-list distinct ids,
`reciprocalRankFusion` (with `K = RRF_K = 60`) returns a permutation of the
first-seen-ordered fused map in which every item's fused score is the sum
over the input lists of `1/(K + rank)` for the list's entry carrying that id
(`0` for lists the item is absent from), and the output is sorted descending
by fused score with ties broken by first-seen order. -/
theorem C1_reciprocal_rank_fusion (sr : List (List SearchEntry))
    (hid : ∀ l ∈ sr, ∀ e ∈ l, (truthyId e).isSome = true)
    (hrank : ∀ l ∈ sr, ∀ e ∈ l, 1 ≤ effRank e)
    (hnodup : ∀ l ∈ sr, (l.filterMap truthyId).Nodup) :
    reciprocalRankFusion sr RRF_K ~ rrfAccum RRF_K sr ∧
    (rrfAccum RRF_K sr).map (fun t => t.id) = firstSeenIds sr ∧
    (∀ t ∈ reciprocalRankFusion sr RRF_K,
      t.rrfScore = (sr.map (fun l => listContribution RRF_K l t.id)).sum) ∧
    (reciprocalRankFusion sr RRF_K).Pairwise (fun a b =>
      b.rrfScore < a.rrfScore ∨ (a.rrfScore = b.rrfScore ∧
        idIdx (firstSeenIds sr) a.id < idIdx (firstSeenIds sr) b.id)) := by
  have hperm : reciprocalRankFusion sr RRF_K ~ rrfAccum RRF_K sr :=
    sortDescBy_perm (fun t : FusedTopic => t.rrfScore) (rrfAccum RRF_K sr)
  have hids := rrfAccum_map_id RRF_K sr
  have hnd : ((rrfAccum RRF_K sr).map (fun t => t.id)).Nodup := by
    rw [hids]
    exact dedupKeepFirst_nodup _
  refine ⟨hperm, hids, ?_, ?_⟩
  · intro t ht
    have hmem : t ∈ rrfAccum RRF_K sr := hperm.mem_iff.mp ht
    have h1 : t.rrfScore = scoreOf (rrfAccum RRF_K sr) t.id :=
      scoreOf_mem (rrfAccum RRF_K sr) hnd t hmem
    have h2 : scoreOf (rrfAccum RRF_K sr) t.id = entriesContribution RRF_K sr.flatten t.id := by
      unfold rrfAccum
      rw [scoreOf_foldl]
      show scoreOf [] t.id + _ = _
      simp only [scoreOf]
      rw [zero_add]
    rw [h1, h2, entriesContribution_flatten]
    congr 1
    exact List.map_congr_left
      (fun l hl => entriesContribution_eq_listContribution RRF_K t.id l (hnodup l hl))
  · have hR : (rrfAccum RRF_K sr).Pairwise (fun a b =>
        idIdx (firstSeenIds sr) a.id < idIdx (firstSeenIds sr) b.id) := by
      have := pairwise_idIdx (rrfAccum RRF_K sr) hnd
      rwa [hids] at this
    exact sortDescBy_pairwise (fun t : FusedTopic => t.rrfScore) _ (rrfAccum RRF_K sr) hR

/-- Witness for C1 at a concrete pair of ranked lists sharing one topic: the
fused output is a permutation of the first-seen-ordered fused map, and the
output is pairwise ordered by score with first-seen tie-breaking. -/
theorem C1_reciprocal_rank_fusion_witness :
    reciprocalRankFusion
        [[{ id := some "A", name := "Topic A", description := "", keywords := [], users := [],
            sampleMessages := [], messageCount := 0, hybridRank := none, vectorRank := none,
            bm25Rank := some 1 },
          { id := some "B", name := "Topic B", description := "", keywords := [], users := [],
            sampleMessages := [], messageCount := 0, hybridRank := none, vectorRank := none,
            bm25Rank := some 2 }],
         [{ id := some "B", name := "Topic B", description := "", keywords := [], users := [],
            sampleMessages := [], messageCount := 0, hybridRank := none, vectorRank := some 1,
            bm25Rank := none }]] RRF_K ~
      rrfAccum RRF_K
        [[{ id := some "A", name := "Topic A", description := "", keywords := [], users := [],
            sampleMessages := [], messageCount := 0, hybridRank := none, vectorRank := none,
            bm25Rank := some 1 },
          { id := some "B", name := "Topic B", description := "", keywords := [], users := [],
            sampleMessages := [], messageCount := 0, hybridRank := none, vectorRank := none,
            bm25Rank := some 2 }],
         [{ id := some "B", name := "Topic B", description := "", keywords := [], users := [],
            sampleMessages := [], messageCount := 0, hybridRank := none, vectorRank := some 1,
            bm25Rank := none }]] :=
  (C1_reciprocal_rank_fusion _ (by decide) (by decide) (by decide)).1

/-! ## Claim C10 infrastructure

`noAbbrWordMatch t` decides whether the (already normalized) string still
contains some abbreviation as a `\b`-delimited word — exactly the condition
under which a second `normalizeText` pass does more work. -/

def noAbbrWordMatch (t : String) : Bool :=
  ABBREVIATIONS.all (fun p => !(hasWordMatch p.1.toList none t.toList))

/-- If the scanner finds no word match, the replacement pass is the
identity, whatever the fuel. -/
lemma replaceWordFuel_of_no_match (abbr exp : List Char) :
    ∀ (s : List Char) (fuel : Nat) (prev : Option Char),
      hasWordMatch abbr prev s = false → replaceWordFuel abbr exp fuel prev s = s := by
  intro s
  induction s with
  | nil =>
    intro fuel prev _
    cases fuel with
    | zero => rfl
    | succ n => rfl
  | cons c rest ih =>
    intro fuel prev h
    have hcond : matchCondAt abbr prev (c :: rest) = false := by
      cases hm : matchCondAt abbr prev (c :: rest)
      · rfl
      · exfalso
        have : hasWordMatch abbr prev (c :: rest) = true := by
          show (if matchCondAt abbr prev (c :: rest) = true then true
            else hasWordMatch abbr (some c) rest) = true
          rw [if_pos hm]
        rw [this] at h
        cases h
    have htail : hasWordMatch abbr (some c) rest = false := by
      have : hasWordMatch abbr prev (c :: rest) = hasWordMatch abbr (some c) rest := by
        show (if matchCondAt abbr prev (c :: rest) = true then true
          else hasWordMatch abbr (some c) rest) = _
        rw [if_neg (by rw [hcond]; exact Bool.false_ne_true)]
      rw [this] at h
      exact h
    cases fuel with
    | zero => rfl
    | succ n =>
      show (if matchCondAt abbr prev (c :: rest) = true then _ else
        c :: replaceWordFuel abbr exp n (some c) rest) = c :: rest
      rw [if_neg (by rw [hcond]; exact Bool.false_ne_true)]
      rw [ih n (some c) htail]

/-- The whole abbreviation-expansion pass is the identity on a string with no
remaining abbreviation word. -/
lemma expandAbbreviations_of_no_match (l : List Char)
    (h : ∀ p ∈ ABBREVIATIONS, hasWordMatch p.1.toList none l = false) :
    expandAbbreviations l = l := by
  unfold expandAbbreviations
  have aux : ∀ (abbrs : List (String × String)),
      (∀ p ∈ abbrs, hasWordMatch p.1.toList none l = false) →
      abbrs.foldl (fun acc p => replaceWord p.1.toList p.2.toList acc) l = l := by
    intro abbrs
    induction abbrs with
    | nil => intro _; rfl
    | cons p ps ih =>
      intro hh
      show ps.foldl _ (replaceWord p.1.toList p.2.toList l) = l
      rw [show replaceWord p.1.toList p.2.toList l = l from
        replaceWordFuel_of_no_match _ _ l l.length none (hh p (List.mem_cons_self _ _))]
      exact ih (fun p2 hp2 => hh p2 (List.mem_cons_of_mem _ hp2))
  exact aux ABBREVIATIONS h

/-! ### Whitespace and trimming lemmas -/

def cleanChar (c : Char) : Bool := isLowerAlnumChar c || c = ' '

lemma isWs_cases {c : Char} (hw : isWsChar c = true) :
    c = ' ' ∨ c = '\t' ∨ c = '\n' ∨ c = '\r' := by
  unfold isWsChar at hw
  have := by simpa using hw
  tauto

lemma isLowerAlnum_not_ws {c : Char} (h : isLowerAlnumChar c = true) : isWsChar c = false := by
  cases hw : isWsChar c
  · rfl
  · exfalso
    rcases isWs_cases hw with rfl | rfl | rfl | rfl <;> exact absurd h (by decide)

lemma isWsChar_of_clean {c : Char} (hc : cleanChar c = true) (hw : isWsChar c = true) :
    c = ' ' := by
  unfold cleanChar at hc
  rcases Bool.or_eq_true_iff.mp hc with h | h
  · rw [isLowerAlnum_not_ws h] at hw
    cases hw
  · simpa using h

lemma head?_dropWhile_false (p : Char → Bool) :
    ∀ (l : List Char) (c : Char), (l.dropWhile p).head? = some c → p c = false := by
  intro l
  induction l with
  | nil => intro c h; cases h
  | cons a l ih =>
    intro c h
    by_cases ha : p a = true
    · rw [List.dropWhile_cons_of_pos ha] at h
      exact ih c h
    · rw [List.dropWhile_cons_of_neg ha] at h
      simp only [List.head?_cons, Option.some_inj] at h
      subst h
      cases hpa : p a
      · rfl
      · exact absurd hpa ha

lemma dropWhile_eq_self_of_head (p : Char → Bool) (l : List Char)
    (h : ∀ c, l.head? = some c → p c = false) : l.dropWhile p = l := by
  cases l with
  | nil => rfl
  | cons a l =>
    have := h a rfl
    rw [List.dropWhile_cons_of_neg (by rw [this]; exact Bool.false_ne_true)]

lemma chain'_dropWhile {R : Char → Char → Prop} (p : Char → Bool) :
    ∀ l : List Char, l.Chain' R → (l.dropWhile p).Chain' R := by
  intro l
  induction l with
  | nil => intro _; exact List.chain'_nil
  | cons a l ih =>
    intro h
    by_cases ha : p a = true
    · rw [List.dropWhile_cons_of_pos ha]
      exact ih h.tail
    · rw [List.dropWhile_cons_of_neg ha]
      exact h

lemma getLast?_suffix_ne_nil {l1 l2 : List Char} (h : l1 <:+ l2) (hne : l1 ≠ []) :
    l1.getLast? = l2.getLast? := by
  obtain ⟨pre, rfl⟩ := h
  rw [List.getLast?_append_of_ne_nil _ hne]

/-! ### The collapse pass produces single-spaced text -/

/-- No two adjacent whitespace characters. -/
def NoAdjWs (a b : Char) : Prop := ¬(isWsChar a = true ∧ isWsChar b = true)

lemma mem_collapseWsAux :
    ∀ (l : List Char) (b : Bool) (c : Char), c ∈ collapseWsAux b l →
      c = ' ' ∨ (c ∈ l ∧ isWsChar c = false) := by
  intro l
  induction l with
  | nil => intro b c h; cases h
  | cons d rest ih =>
    intro b c h
    by_cases hd : isWsChar d = true
    · rw [show collapseWsAux b (d :: rest) =
        (if b then [] else [' ']) ++ collapseWsAux true rest from by
          show (if isWsChar d = true then _ else _) = _
          rw [if_pos hd]] at h
      rcases List.mem_append.mp h with h1 | h1
      · cases b with
        | true => cases h1
        | false =>
          left
          simpa using h1
      · rcases ih true c h1 with h2 | ⟨h2, h3⟩
        · exact Or.inl h2
        · exact Or.inr ⟨List.mem_cons_of_mem _ h2, h3⟩
    · rw [show collapseWsAux b (d :: rest) = d :: collapseWsAux false rest from by
        show (if isWsChar d = true then _ else _) = _
        rw [if_neg hd]] at h
      rcases List.mem_cons.mp h with rfl | h1
      · right
        refine ⟨List.mem_cons_self _ _, ?_⟩
        cases hdd : isWsChar c
        · rfl
        · exact absurd hdd hd
      · rcases ih false c h1 with h2 | ⟨h2, h3⟩
        · exact Or.inl h2
        · exact Or.inr ⟨List.mem_cons_of_mem _ h2, h3⟩

lemma collapseWsAux_cons_ws (b : Bool) (d : Char) (rest : List Char)
    (hd : isWsChar d = true) :
    collapseWsAux b (d :: rest) = (if b then [] else [' ']) ++ collapseWsAux true rest := by
  show (if isWsChar d = true then (if b then [] else [' ']) ++ collapseWsAux true rest
    else d :: collapseWsAux false rest) = _
  rw [if_pos hd]

lemma collapseWsAux_cons_nonws (b : Bool) (d : Char) (rest : List Char)
    (hd : isWsChar d = false) :
    collapseWsAux b (d :: rest) = d :: collapseWsAux false rest := by
  show (if isWsChar d = true then (if b then [] else [' ']) ++ collapseWsAux true rest
    else d :: collapseWsAux false rest) = _
  rw [if_neg (by rw [hd]; exact Bool.false_ne_true)]

lemma head_collapseWsAux_true :
    ∀ (l : List Char) (c : Char), (collapseWsAux true l).head? = some c →
      isWsChar c = false := by
  intro l
  induction l with
  | nil => intro c h; cases h
  | cons d rest ih =>
    intro c h
    by_cases hd : isWsChar d = true
    · rw [collapseWsAux_cons_ws true d rest hd] at h
      exact ih c (by simpa using h)
    · have hdf : isWsChar d = false := by
        cases hdd : isWsChar d
        · rfl
        · exact absurd hdd hd
      rw [collapseWsAux_cons_nonws true d rest hdf] at h
      simp only [List.head?_cons, Option.some_inj] at h
      subst h
      exact hdf

lemma chain'_collapseWsAux :
    ∀ (l : List Char) (b : Bool), (collapseWsAux b l).Chain' NoAdjWs := by
  intro l
  induction l with
  | nil => intro b; exact List.chain'_nil
  | cons d rest ih =>
    intro b
    by_cases hd : isWsChar d = true
    · rw [show collapseWsAux b (d :: rest) =
        (if b then [] else [' ']) ++ collapseWsAux true rest from by
          show (if isWsChar d = true then _ else _) = _
          rw [if_pos hd]]
      cases b with
      | true =>
        simpa using ih true
      | false =>
        show List.Chain' NoAdjWs (' ' :: collapseWsAux true rest)
        rw [List.chain'_cons']
        refine ⟨?_, ih true⟩
        intro y hy
        have := head_collapseWsAux_true rest y hy
        intro hcon
        rw [this] at hcon
        exact Bool.false_ne_true hcon.2
    · rw [show collapseWsAux b (d :: rest) = d :: collapseWsAux false rest from by
        show (if isWsChar d = true then _ else _) = _
        rw [if_neg hd]]
      rw [List.chain'_cons']
      refine ⟨?_, ih false⟩
      intro y _
      intro hcon
      exact hd hcon.1

lemma mem_stripSpecials (l : List Char) (c : Char) (h : c ∈ stripSpecials l) :
    c = ' ' ∨ isKeptChar c = true := by
  unfold stripSpecials at h
  rcases List.mem_map.mp h with ⟨d, _, hd⟩
  by_cases hk : isKeptChar d = true
  · rw [if_pos hk] at hd
    exact Or.inr (hd ▸ hk)
  · rw [if_neg hk] at hd
    exact Or.inl hd.symm

/-- Every character of the collapse-of-strip output is clean: a lowercase
alphanumeric or a single space. -/
lemma cleanChar_of_collapse_strip (e : List Char) (c : Char)
    (h : c ∈ collapseWs (stripSpecials e)) : cleanChar c = true := by
  rcases mem_collapseWsAux (stripSpecials e) false c h with rfl | ⟨hmem, hnw⟩
  · unfold cleanChar
    simp
  · rcases mem_stripSpecials e c hmem with rfl | hk
    · unfold cleanChar
      simp
    · unfold isKeptChar at hk
      rcases Bool.or_eq_true_iff.mp hk with h1 | h1
      · unfold cleanChar
        rw [h1]
        rfl
      · rw [h1] at hnw
        cases hnw

lemma normalizeText_empty : normalizeText "" = "" := rfl

lemma normalizeText_eq_of_ne (s : String) (h : s ≠ "") :
    normalizeText s = String.mk (trimChars (collapseWs (stripSpecials (expandAbbreviations
      (trimChars (s.toList.map jsLowerChar)))))) := by
  unfold normalizeText
  rw [if_neg h]

lemma toList_mk (l : List Char) : (String.mk l).toList = l := rfl

lemma noAdjWs_symm {a b : Char} (hab : NoAdjWs a b) : NoAdjWs b a := fun hcon =>
  hab ⟨hcon.2, hcon.1⟩

/-- Trimming a single-spaced clean string keeps it clean and gives
whitespace-free ends. -/
lemma trim_clean_of (M : List Char) (hMclean : ∀ c ∈ M, cleanChar c = true)
    (hMchain : M.Chain' NoAdjWs) :
    (∀ c ∈ trimChars M, cleanChar c = true) ∧
    (trimChars M).Chain' NoAdjWs ∧
    (∀ c, (trimChars M).head? = some c → isWsChar c = false) ∧
    (∀ c, (trimChars M).getLast? = some c → isWsChar c = false) := by
  have htrim_sub : ∀ c ∈ trimChars M, c ∈ M := by
    intro c hc
    unfold trimChars at hc
    rw [List.mem_reverse] at hc
    have h1 := (List.dropWhile_sublist isWsChar).subset hc
    rw [List.mem_reverse] at h1
    exact (List.dropWhile_sublist isWsChar).subset h1
  refine ⟨fun c hc => hMclean c (htrim_sub c hc), ?_, ?_, ?_⟩
  · unfold trimChars
    have c1 : (M.dropWhile isWsChar).Chain' NoAdjWs := chain'_dropWhile _ _ hMchain
    have c2 : ((M.dropWhile isWsChar).reverse).Chain' NoAdjWs :=
      List.chain'_reverse.mpr (c1.imp (fun _ _ hab => noAdjWs_symm hab))
    have c3 : (((M.dropWhile isWsChar).reverse).dropWhile isWsChar).Chain' NoAdjWs :=
      chain'_dropWhile _ _ c2
    exact List.chain'_reverse.mpr (c3.imp (fun _ _ hab => noAdjWs_symm hab))
  · intro c hc
    unfold trimChars at hc
    rw [List.head?_reverse] at hc
    have hne : ((M.dropWhile isWsChar).reverse.dropWhile isWsChar) ≠ [] := by
      intro hcon
      rw [hcon] at hc
      cases hc
    rw [getLast?_suffix_ne_nil (List.dropWhile_suffix _) hne] at hc
    rw [List.getLast?_reverse] at hc
    exact head?_dropWhile_false isWsChar M c hc
  · intro c hc
    unfold trimChars at hc
    rw [List.getLast?_reverse] at hc
    exact head?_dropWhile_false isWsChar _ c hc

section ExpandOpaque

attribute [local irreducible] expandAbbreviations

/-- The four cleanliness facts about `normalizeText`'s output. -/
lemma normalizeText_clean (s : String) :
    (∀ c ∈ (normalizeText s).toList, cleanChar c = true) ∧
    (normalizeText s).toList.Chain' NoAdjWs ∧
    (∀ c, (normalizeText s).toList.head? = some c → isWsChar c = false) ∧
    (∀ c, (normalizeText s).toList.getLast? = some c → isWsChar c = false) := by
  by_cases h : s = ""
  · rw [h, normalizeText_empty]
    refine ⟨fun c hc => absurd hc (List.not_mem_nil c), List.chain'_nil, ?_, ?_⟩
    · intro c hc
      cases hc
    · intro c hc
      cases hc
  · rw [normalizeText_eq_of_ne s h, toList_mk]
    exact trim_clean_of (collapseWs (stripSpecials (expandAbbreviations
        (trimChars (s.toList.map jsLowerChar)))))
      (fun c hc => cleanChar_of_collapse_strip _ c hc)
      (chain'_collapseWsAux (stripSpecials (expandAbbreviations
        (trimChars (s.toList.map jsLowerChar)))) false)

end ExpandOpaque

/-! ### The pipeline stages fix already-normalized text -/

lemma jsLowerChar_fixed {c : Char} (hc : cleanChar c = true) : jsLowerChar c = c := by
  unfold jsLowerChar
  apply if_neg
  rintro ⟨h1, h2⟩
  unfold cleanChar at hc
  rcases Bool.or_eq_true_iff.mp hc with h | h
  · unfold isLowerAlnumChar at h
    rcases Bool.or_eq_true_iff.mp h with h3 | h3 <;> rw [Bool.and_eq_true] at h3
    · have ha : 'a' ≤ c := by simpa using h3.1
      exact absurd (le_trans ha h2) (by decide)
    · have hb : c ≤ '9' := by simpa using h3.2
      exact absurd (le_trans h1 hb) (by decide)
  · have : c = ' ' := by simpa using h
    subst this
    exact absurd h1 (by decide)

lemma map_jsLowerChar_id (L : List Char) (h : ∀ c ∈ L, cleanChar c = true) :
    L.map jsLowerChar = L := by
  calc L.map jsLowerChar = L.map id :=
      List.map_congr_left (fun c hc => jsLowerChar_fixed (h c hc))
    _ = L := List.map_id L

lemma isKeptChar_of_clean {c : Char} (hc : cleanChar c = true) : isKeptChar c = true := by
  unfold cleanChar at hc
  unfold isKeptChar
  rcases Bool.or_eq_true_iff.mp hc with h | h
  · rw [h]
    rfl
  · have : c = ' ' := by simpa using h
    subst this
    decide

lemma stripSpecials_id (L : List Char) (h : ∀ c ∈ L, cleanChar c = true) :
    stripSpecials L = L := by
  unfold stripSpecials
  calc L.map (fun c => if isKeptChar c then c else ' ') = L.map id :=
      List.map_congr_left (fun c hc => by
        show (if isKeptChar c = true then c else ' ') = c
        rw [if_pos (isKeptChar_of_clean (h c hc))])
    _ = L := List.map_id L

lemma trimChars_id (L : List Char)
    (hhead : ∀ c, L.head? = some c → isWsChar c = false)
    (hlast : ∀ c, L.getLast? = some c → isWsChar c = false) : trimChars L = L := by
  unfold trimChars
  rw [dropWhile_eq_self_of_head isWsChar L hhead]
  rw [dropWhile_eq_self_of_head isWsChar L.reverse
    (fun c hc => hlast c (by rwa [List.head?_reverse] at hc))]
  exact List.reverse_reverse L

lemma collapseWsAux_id (L : List Char) (hclean : ∀ c ∈ L, cleanChar c = true)
    (hchain : L.Chain' NoAdjWs) :
    collapseWsAux false L = L ∧
    ((∀ c, L.head? = some c → isWsChar c = false) → collapseWsAux true L = L) := by
  induction L with
  | nil => exact ⟨rfl, fun _ => rfl⟩
  | cons d rest ih =>
    have hdclean := hclean d (List.mem_cons_self _ _)
    have hrestclean : ∀ c ∈ rest, cleanChar c = true := fun c hc =>
      hclean c (List.mem_cons_of_mem _ hc)
    obtain ⟨ih1, ih2⟩ := ih hrestclean hchain.tail
    by_cases hd : isWsChar d = true
    · have hd2 : d = ' ' := isWsChar_of_clean hdclean hd
      have hheadrest : ∀ c, rest.head? = some c → isWsChar c = false := by
        intro c hc
        cases rest with
        | nil => cases hc
        | cons e rest2 =>
          simp only [List.head?_cons, Option.some_inj] at hc
          subst hc
          have hrel : NoAdjWs d e := (List.chain'_cons.mp hchain).1
          cases hwe : isWsChar e
          · rfl
          · exact absurd ⟨hd, hwe⟩ hrel
      constructor
      · rw [collapseWsAux_cons_ws false d rest hd]
        show ' ' :: collapseWsAux true rest = d :: rest
        rw [ih2 hheadrest, hd2]
      · intro hhead
        have := hhead d rfl
        rw [this] at hd
        cases hd
    · have hdf : isWsChar d = false := by
        cases hx : isWsChar d
        · rfl
        · exact absurd hx hd
      constructor
      · rw [collapseWsAux_cons_nonws false d rest hdf, ih1]
      · intro _
        rw [collapseWsAux_cons_nonws true d rest hdf, ih1]

lemma mk_toList (t : String) : String.mk t.toList = t := rfl

lemma noAbbrWordMatch_spec (t : String) (h : noAbbrWordMatch t = true) :
    ∀ p ∈ ABBREVIATIONS, hasWordMatch p.1.toList none t.toList = false := by
  unfold noAbbrWordMatch at h
  rw [List.all_eq_true] at h
  intro p hp
  have := h p hp
  simpa using this

section ExpandOpaque2

attribute [local irreducible] expandAbbreviations

/-- Claim C10 (amended): `normalizeText` is not idempotent in general (the
strip pass can unmask an abbreviation that the word-boundary expansion
missed, as in `"x_db"`); a second pass only re-runs abbreviation expansion,
so whenever the first pass's output contains no abbreviation as a
`\b`-delimited word, `normalizeText (normalizeText s) = normalizeText s`. -/
theorem C10_normalizeText_idempotent_of_no_abbr (s : String)
    (h : noAbbrWordMatch (normalizeText s) = true) :
    normalizeText (normalizeText s) = normalizeText s := by
  obtain ⟨hclean, hchain, hhead, hlast⟩ := normalizeText_clean s
  by_cases ht : normalizeText s = ""
  · rw [ht, normalizeText_empty]
  · rw [normalizeText_eq_of_ne (normalizeText s) ht]
    rw [map_jsLowerChar_id _ hclean]
    rw [trimChars_id _ hhead hlast]
    rw [expandAbbreviations_of_no_match _ (noAbbrWordMatch_spec _ h)]
    rw [stripSpecials_id _ hclean]
    show String.mk (trimChars (collapseWsAux false (normalizeText s).toList)) = _
    rw [(collapseWsAux_id _ hclean hchain).1]
    rw [trimChars_id _ hhead hlast]
    exact mk_toList _

end ExpandOpaque2

/-- Claim C10 counterexample: an underscore is a word character for the
abbreviation regex's `\b` but is stripped afterwards, so the first pass
leaves `db` unexpanded in `"x_db"` while the second pass expands it:
`normalizeText` is not idempotent. -/
theorem C10_counterexample :
    normalizeText "x_db" = "x db" ∧
    normalizeText (normalizeText "x_db") = "x database" ∧
    normalizeText (normalizeText "x_db") ≠ normalizeText "x_db" := by
  refine ⟨?_, ?_, ?_⟩ <;> decide

/-- Witness for C10 (amended) at a concrete input whose normalization
contains no abbreviation word. -/
theorem C10_normalizeText_idempotent_witness :
    normalizeText (normalizeText "Hello,   WORLD!") = normalizeText "Hello,   WORLD!" :=
  C10_normalizeText_idempotent_of_no_abbr "Hello,   WORLD!" (by decide)

end SlackTopics
